import Mathlib

/-!
Krita scale visitor (`krita/core/kis_scale_visitor.cc`)

A shallow embedding of the filter kernels, of `KisScaleVisitor::calcContrib`
and of `KisScaleVisitor::scale`, with the properties of the resampling
engine proved about it.

Conventions of the embedding.

* A C++ `double` is an element of an arbitrary linearly ordered field `K`
  with a floor function; arithmetic is exact.  Every definition is
  computable and can be run at `K = ℚ`; every theorem holds at `K = ℝ` too.
  The one property that depends on the rounding of `double` operations, the
  capacity of a contribution list, is settled on `calcContribRounded`, where
  every operation is rounded to IEEE 754 binary64 (`binary64`).
* `Q_INT32` / `int` values are unbounded `Int`s (no wrap-around is modelled).
* A `QUANTUM` (unsigned 8-bit sample) is carried as an `Int`; a cast to
  `QUANTUM` is value preserving, and the range theorem shows that the values
  cast by `scale` to its output buffer do lie in `[0, 255]`.
* An unchecked array read outside its array is undefined behaviour in the
  source; the embedding returns `none` there.
* Memory management (the `new[]` / `delete[]` pairs, the row cache `tmpRows`
  and the release loop after the vertical pass) and the progress
  notifications have no counterpart in the embedding.
-/

namespace KisScale

/-! ## Filter kernels -/

section Kernels

variable {K : Type} [LinearOrderedField K]

/-- `KisSimpleScaleFilterStrategy::valueAt`. -/
def KisSimpleScaleFilterStrategy.valueAt (t : K) : K :=
  let t := if t < 0.0 then -t else t
  if t < 1.0 then (2.0 * t - 3.0) * t * t + 1.0 else 0.0

/-- `KisBoxScaleFilterStrategy::valueAt`. -/
def KisBoxScaleFilterStrategy.valueAt (t : K) : K :=
  if t > -0.5 ∧ t ≤ 0.5 then 1.0 else 0.0

/-- `KisTriangleScaleFilterStrategy::valueAt`. -/
def KisTriangleScaleFilterStrategy.valueAt (t : K) : K :=
  let t := if t < 0.0 then -t else t
  if t < 1.0 then 1.0 - t else 0.0

/-- `KisBellScaleFilterStrategy::valueAt`. -/
def KisBellScaleFilterStrategy.valueAt (t : K) : K :=
  let t := if t < 0 then -t else t
  if t < 0.5 then 0.75 - t * t
  else if t < 1.5 then
    let t := t - 1.5
    0.5 * (t * t)
  else 0.0

/-- `KisBSplineScaleFilterStrategy::valueAt`. -/
def KisBSplineScaleFilterStrategy.valueAt (t : K) : K :=
  let t := if t < 0 then -t else t
  if t < 1 then
    let tt := t * t
    (0.5 * tt * t) - tt + (2.0 / 3.0)
  else if t < 2 then
    let t := 2 - t
    (1.0 / 6.0) * (t * t * t)
  else 0.0

/-- `KisLanczos3ScaleFilterStrategy::sinc`.  The libm function `sin` is a
parameter of the embedding. -/
def KisLanczos3ScaleFilterStrategy.sinc (sin : K → K) (x : K) : K :=
  let pi : K := 3.1415926535897932385
  let x := x * pi
  if x ≠ 0 then sin x / x else 1.0

/-- `KisLanczos3ScaleFilterStrategy::valueAt`. -/
def KisLanczos3ScaleFilterStrategy.valueAt (sin : K → K) (t : K) : K :=
  let t := if t < 0 then -t else t
  if t < 3.0 then
    KisLanczos3ScaleFilterStrategy.sinc sin t * KisLanczos3ScaleFilterStrategy.sinc sin (t / 3.0)
  else 0.0

/-- `KisMitchellScaleFilterStrategy::valueAt`.  As in the source, `tt` is
computed before `t` is replaced by its absolute value. -/
def KisMitchellScaleFilterStrategy.valueAt (t : K) : K :=
  let B : K := 1.0 / 3.0
  let C : K := 1.0 / 3.0
  let tt := t * t
  let t := if t < 0 then -t else t
  if t < 1.0 then
    let t := ((12.0 - 9.0 * B - 6.0 * C) * (t * tt)) + ((-18.0 + 12.0 * B + 6.0 * C) * tt)
      + (6.0 - 2 * B)
    t / 6.0
  else if t < 2.0 then
    let t := ((-1.0 * B - 6.0 * C) * (t * tt)) + ((6.0 * B + 30.0 * C) * tt)
      + ((-12.0 * B - 48.0 * C) * t) + (8.0 * B + 24 * C)
    t / 6.0
  else 0.0

/-- The filter selector `enumFilterType` switched on by `scale`. -/
inductive enumFilterType
  | BOX_FILTER
  | TRIANGLE_FILTER
  | BELL_FILTER
  | B_SPLINE_FILTER
  | FILTER
  | LANCZOS3_FILTER
  | MITCHELL_FILTER
  deriving DecidableEq, Repr

/-- The base class `KisScaleFilterStrategy`: a support radius and the
virtual `valueAt`. -/
structure KisScaleFilterStrategy (K : Type) where
  supportVal : K
  valueAt : K → K

/-- `KisScaleFilterStrategy::support`. -/
def KisScaleFilterStrategy.support (f : KisScaleFilterStrategy K) : K := f.supportVal

/-- Modelled from the spec: the `supportVal` each strategy's constructor
sets (the class declarations of `kis_scale_visitor.h` are not part of the
sources at hand); the values are those of the kernel table of the
specification. -/
def supportOf (filterType : enumFilterType) : K :=
  match filterType with
  | .BOX_FILTER => 0.5
  | .TRIANGLE_FILTER => 1.0
  | .BELL_FILTER => 1.5
  | .B_SPLINE_FILTER => 2.0
  | .FILTER => 1.0
  | .LANCZOS3_FILTER => 3.0
  | .MITCHELL_FILTER => 2.0

/-- The `valueAt` selected by the `switch (filterType)` of `scale`. -/
def valueAtOf (sin : K → K) (filterType : enumFilterType) : K → K :=
  match filterType with
  | .BOX_FILTER => KisBoxScaleFilterStrategy.valueAt
  | .TRIANGLE_FILTER => KisTriangleScaleFilterStrategy.valueAt
  | .BELL_FILTER => KisBellScaleFilterStrategy.valueAt
  | .B_SPLINE_FILTER => KisBSplineScaleFilterStrategy.valueAt
  | .FILTER => KisSimpleScaleFilterStrategy.valueAt
  | .LANCZOS3_FILTER => KisLanczos3ScaleFilterStrategy.valueAt sin
  | .MITCHELL_FILTER => KisMitchellScaleFilterStrategy.valueAt

/-- The strategy object created by the `switch (filterType)` of `scale`. -/
def newStrategy (sin : K → K) (filterType : enumFilterType) : KisScaleFilterStrategy K :=
  ⟨supportOf filterType, valueAtOf sin filterType⟩

/-- The first piece of the Mitchell-Netravali cubic with parameters `B`, `C`,
as the specification states it (for `0 ≤ u < 1`). -/
def mitchellNetravaliInner (B C u : K) : K :=
  ((12 - 9 * B - 6 * C) * u ^ 3 + (-18 + 12 * B + 6 * C) * u ^ 2 + (6 - 2 * B)) / 6

/-- The second piece of the Mitchell-Netravali cubic with parameters `B`,
`C`, as the specification states it (for `1 ≤ u < 2`). -/
def mitchellNetravaliOuter (B C u : K) : K :=
  ((-B - 6 * C) * u ^ 3 + (6 * B + 30 * C) * u ^ 2 + (-12 * B - 48 * C) * u + (8 * B + 24 * C)) / 6

/-- The Mitchell-Netravali cubic with parameters `B`, `C` at distance
`u ≥ 0`, as the specification states it. -/
def mitchellNetravali (B C u : K) : K :=
  if u < 1 then mitchellNetravaliInner B C u
  else if u < 2 then mitchellNetravaliOuter B C u
  else 0

end Kernels

/-! ## Contribution lists -/

section Engine

variable {K : Type} [LinearOrderedField K] [FloorRing K]

/-- Modelled from the spec: the class `Contrib` of `kis_scale_visitor.h`
(not part of the sources at hand), a pair of a source index and a weight. -/
structure Contrib (K : Type) where
  m_pixel : Int
  m_weight : K

/-- Modelled from the spec: the class `ContribList` of
`kis_scale_visitor.h` (not part of the sources at hand).  `p` holds the
entries written so far (`p[0] .. p[n-1]`), `cap` the number of entries
allocated by `new Contrib[cap]`. -/
structure ContribList (K : Type) where
  cap : Int
  p : List (Contrib K)

/-- The counter `n` of a `ContribList`. -/
def ContribList.n (c : ContribList K) : Int := c.p.length

/-- The C cast `(int) d` of a `double`: truncation towards zero. -/
def toInt (d : K) : Int := if 0 ≤ d then ⌊d⌋ else ⌈d⌉

/-- The values taken by `srcpos` in
`for (int srcpos = (int)begin; srcpos <= end; ++srcpos)`, in order. -/
def srcposRange (begin end_ : Int) : List Int :=
  (List.range (end_ + 1 - begin).toNat).map fun (j : Nat) => begin + (j : Int)

/-- `KisScaleVisitor::calcContrib`: the contribution list of target index
`i`.  The division `fwidth / scale` is the field division (the source is
only called with `scale ≠ 0`, see `scale`). -/
def calcContrib (scale fwidth : K) (srcwidth : Int) (filterStrategy : KisScaleFilterStrategy K)
    (i : Int) : ContribList K :=
  if scale < 1.0 then
    -- Shrinking image
    let width := fwidth / scale
    let fscale := 1.0 / scale
    let center := (i : K) / scale
    let begin : Int := ⌈center - width⌉
    let end_ : Int := ⌊center + width⌋
    { cap := toInt (width * 2 + 1)
      p := (srcposRange begin end_).map fun (srcpos : Int) =>
        let weight := center - (srcpos : K)
        let weight := filterStrategy.valueAt (weight / fscale) / fscale
        let n : Int :=
          if srcpos < 0 then -srcpos
          else if srcpos ≥ srcwidth then (srcwidth - srcpos) + srcwidth - 1
          else srcpos
        { m_pixel := n, m_weight := weight } }
  else
    -- Expanding image
    let center := (i : K) / scale
    let begin : Int := ⌈center - fwidth⌉
    let end_ : Int := ⌊center + fwidth⌋
    { cap := toInt (fwidth * 2 + 1)
      p := (srcposRange begin end_).map fun (srcpos : Int) =>
        let weight := center - (srcpos : K)
        let weight := filterStrategy.valueAt weight
        let n : Int :=
          if srcpos < 0 then -srcpos
          else if srcpos ≥ srcwidth then (srcwidth - srcpos) + srcwidth - 1
          else srcpos
        { m_pixel := n, m_weight := weight } }

/-- The half-width of the sampling window of `calcContrib`. -/
def windowHalfWidth (scale fwidth : K) : K := if scale < 1.0 then fwidth / scale else fwidth

/-- The source index stored by `calcContrib` for window position `srcpos`. -/
def reflectIndex (srcwidth srcpos : Int) : Int :=
  if srcpos < 0 then -srcpos
  else if srcpos ≥ srcwidth then (srcwidth - srcpos) + srcwidth - 1
  else srcpos

/-! ## The scale engine -/

/-- Modelled from the spec: Qt's `qRound` (not part of the sources at
hand), rounding half up to the nearest integer. -/
def qRound (d : K) : Int := ⌊d + 0.5⌋

/-- Modelled from the spec: Qt's macro `QABS` (not part of the sources at
hand), the absolute value. -/
def QABS (a : Int) : Int := if a ≥ 0 then a else -a

/-- Modelled from the spec: the macro `CLAMP(x, l, u)` of `kis_global.h`
(not part of the sources at hand), clamping `x` to `[l, u]`. -/
def CLAMP (x l u : Int) : Int := if x < l then l else if x > u then u else x

/-- The paint device `m_dev` as `scale` sees it: the extent of its image
(`m_dev->image()->width()`, `height()`), `m_dev->pixelSize()`, and the
`QUANTUM`s of the image rectangle in row-major order, `pixelSize` per pixel. -/
structure KisPaintDevice where
  width : Nat
  height : Nat
  pixelSize : Nat
  data : List Int
  deriving DecidableEq, Repr

/-- The buffer filled by `m_dev->readBytes(buf, 0, y, width, 1)`: row `y`. -/
def KisPaintDevice.readBytes (dev : KisPaintDevice) (y : Nat) : List Int :=
  (dev.data.drop (y * (dev.width * dev.pixelSize))).take (dev.width * dev.pixelSize)

/-- A list of results none of which is undefined. -/
def allDefined {α : Type} : List (Option α) → Option (List α)
  | [] => some []
  | none :: _ => none
  | some a :: l =>
    match allDefined l with
    | none => none
    | some r => some (a :: r)

/-- The vertical filter of `scale` for source column `x` and one channel:
the sample stored in `tmp[x * m_pixelSize + channel]`.  The read of
`tmpRows[contribY.p[0].m_pixel]` is unchecked in the source: with an empty
list, or a first index outside `[0, height)`, the result is undefined. -/
def vertSample (dev : KisPaintDevice) (contribY : ContribList K) (x channel : Nat) :
    Option Int :=
  match contribY.p with
  | [] => none
  | c0 :: _ =>
    if c0.m_pixel < 0 ∨ c0.m_pixel ≥ (dev.height : Int) then none
    else
      let pel : Int := (dev.readBytes c0.m_pixel.toNat).getD (x * dev.pixelSize + channel) 0
      let acc : Bool × K := contribY.p.foldl (fun (s : Bool × K) c =>
          if ¬ (c.m_pixel < 0 ∨ c.m_pixel ≥ (dev.height : Int)) then
            let pel2 : Int :=
              (dev.readBytes c.m_pixel.toNat).getD (x * dev.pixelSize + channel) 0
            (s.1 || decide (pel2 ≠ pel), s.2 + (pel2 : K) * c.m_weight)
          else s) (false, 0.0)
      let weight : Int := if acc.1 then qRound acc.2 else pel
      some (CLAMP weight 0 255)

/-- The horizontal filter of `scale` for one output column (with list
`contribX`) and one channel, reading the intermediate row `tmp`: the sample
stored in `newData`.  The reads `tmp[contribX.p[k].m_pixel * m_pixelSize +
channel]` are unchecked in the source: with an empty list, or any index
outside `[0, width)`, the result is undefined. -/
def horizSample (width pixelSize : Nat) (tmp : List Int) (contribX : ContribList K)
    (channel : Nat) : Option Int :=
  match contribX.p with
  | [] => none
  | c0 :: _ =>
    if c0.m_pixel < 0 ∨ c0.m_pixel ≥ (width : Int) then none
    else
      let pel : Int := tmp.getD (c0.m_pixel.toNat * pixelSize + channel) 0
      match contribX.p.foldlM (fun (s : Bool × K) c =>
          if c.m_pixel < 0 ∨ c.m_pixel ≥ (width : Int) then none
          else
            let pel2 : Int := tmp.getD (c.m_pixel.toNat * pixelSize + channel) 0
            some (s.1 || decide (pel2 ≠ pel), s.2 + (pel2 : K) * c.m_weight)) (false, 0.0) with
      | none => none
      | some acc =>
        let weight : Int := if acc.1 then qRound acc.2 else pel
        some (if weight < 0 then 0 else if weight > 255 then 255 else weight)

/-- One iteration of the row loop of `scale` (after the cancellation
check): the samples written to row `y` of `newData`, in index order. -/
def scaleRow (dev : KisPaintDevice) (yscale fwidth : K)
    (filterStrategy : KisScaleFilterStrategy K) (contribX : List (ContribList K)) (y : Nat) :
    Option (List Int) :=
  -- build y weights
  let contribY := calcContrib yscale fwidth dev.height filterStrategy y
  -- Apply vert filter to make dst row in tmp.
  match allDefined ((List.range dev.width).flatMap fun x =>
      (List.range dev.pixelSize).map fun channel => vertSample dev contribY x channel) with
  | none => none
  | some tmp =>
    -- The temp column has been built. Now stretch it into the dst row.
    allDefined (contribX.flatMap fun cx =>
      (List.range dev.pixelSize).map fun channel =>
        horizSample dev.width dev.pixelSize tmp cx channel)

/-- The row loop `for (int y = 0; y < targetH; y++)` of `scale` over the
remaining rows.  `cancelRequested y` is the value of `m_cancelRequested`
read at the top of iteration `y`.  Result: `none` when a row is undefined,
`some none` when the loop is left by `break`, else the rows written. -/
def rowLoop (dev : KisPaintDevice) (yscale fwidth : K)
    (filterStrategy : KisScaleFilterStrategy K) (contribX : List (ContribList K))
    (cancelRequested : Nat → Bool) : List Nat → Option (Option (List (List Int)))
  | [] => some (some [])
  | y :: ys =>
    if cancelRequested y then some none
    else
      match scaleRow dev yscale fwidth filterStrategy contribX y with
      | none => none
      | some row =>
        match rowLoop dev yscale fwidth filterStrategy contribX cancelRequested ys with
        | none => none
        | some none => some none
        | some (some rows) => some (some (row :: rows))

/-- What a call of `scale` does to `m_dev`. -/
inductive Outcome
  /-- Return at `xscale == 1.0F && yscale == 1.0F`: nothing allocated, built or written. -/
  | unchanged
  /-- `m_cancelRequested` was found raised: `writeBytes` and `crop` are skipped. -/
  | cancelled
  /-- `m_dev->writeBytes(newData, 0, 0, targetW, targetH)` followed by
  `m_dev->crop(0, 0, targetW, targetH)`. -/
  | written (targetW targetH : Int) (newData : List Int)
  deriving DecidableEq, Repr

/-- `KisScaleVisitor::scale`.  `none` stands for undefined behaviour (an
unchecked read outside its array).  `cancelRequested k` is the value of
`m_cancelRequested` at the `k`-th time the function reads it after resetting
it: at the top of iteration `y = k` of the row loop and, when the loop has run
through all `targetH` rows, in the test `if (!m_cancelRequested)` that guards
the write-back (after a `break` the flag is still set there). -/
def scale (sin : K → K) (dev : KisPaintDevice) (xscale yscale : K)
    (cancelRequested : Nat → Bool) (filterType : enumFilterType) : Option Outcome :=
  let filterStrategy := newStrategy sin filterType
  let fwidth := filterStrategy.support
  let width : Int := dev.width
  let height : Int := dev.height
  -- compute size of target image
  if xscale = 1.0 ∧ yscale = 1.0 then some Outcome.unchanged
  else
    let targetW := QABS (qRound (xscale * (width : K)))
    let targetH := QABS (qRound (yscale * (height : K)))
    -- build x weights
    let contribX := (List.range targetW.toNat).map fun (x : Nat) =>
      calcContrib xscale fwidth width filterStrategy (x : Int)
    match rowLoop dev yscale fwidth filterStrategy contribX cancelRequested
        (List.range targetH.toNat) with
    | none => none
    | some none => some Outcome.cancelled
    | some (some rows) =>
      if cancelRequested targetH.toNat then some Outcome.cancelled
      else some (Outcome.written targetW targetH rows.flatten)

/-- Modelled from the spec: the image after the call.  `writeBytes`
followed by `crop` (`KisPaintDevice` is not part of the sources at hand)
replace the image by the `targetW × targetH` output buffer; without them
the image is the one the caller passed. -/
def imageAfter (dev : KisPaintDevice) : Outcome → KisPaintDevice
  | .unchanged => dev
  | .cancelled => dev
  | .written targetW targetH newData =>
    { width := targetW.toNat, height := targetH.toNat, pixelSize := dev.pixelSize,
      data := newData }

/-- One filter pass for one sample, as the specification states it, over the
contributing `(sample, weight)` pairs in list order: when all contributing
samples are identical the result is that sample itself, otherwise it is the
rounded weighted sum. -/
def filteredSample (l : List (Int × K)) : Int :=
  match l with
  | [] => 0
  | e0 :: _ =>
    if l.all (fun e => decide (e.1 = e0.1)) then e0.1
    else qRound ((l.map fun e => (e.1 : K) * e.2).sum)

/-- The vertically filtered sample of source column `x` and channel `channel`
for the row list `contribY`, as the specification states it: the clamped
filter pass over the entries `(r, w)` of the list, with the samples
`src[r][x][channel]`. -/
def verticalPass (dev : KisPaintDevice) (contribY : ContribList K) (x channel : Nat) : Int :=
  CLAMP (filteredSample (contribY.p.map fun e =>
    ((dev.readBytes e.m_pixel.toNat).getD (x * dev.pixelSize + channel) 0, e.m_weight))) 0 255

/-- The sample of an output position, as the specification states the
two-pass filter: the clamped filter pass over the entries `(k, w)` of the
column list `contribX`, with the vertically filtered samples of source column
`k`. -/
def twoPass (dev : KisPaintDevice) (contribX contribY : ContribList K) (channel : Nat) : Int :=
  CLAMP (filteredSample (contribX.p.map fun e =>
    (verticalPass dev contribY e.m_pixel.toNat channel, e.m_weight))) 0 255

/-! ## The arithmetic of `double` -/

/-- Rounding of a rational to the nearest integer, ties to the even one. -/
def roundHalfEven (x : ℚ) : Int :=
  if x - (⌊x⌋ : ℚ) < 1 / 2 then ⌊x⌋
  else if 1 / 2 < x - (⌊x⌋ : ℚ) then ⌊x⌋ + 1
  else if ⌊x⌋ % 2 = 0 then ⌊x⌋ else ⌊x⌋ + 1

/-- The `double` that an operation with exact result `x` returns: IEEE 754
binary64, round to nearest, ties to even, for results in the normal range
(53 significant bits; `Int.log 2 |x|` is the exponent of `x`). -/
def binary64 (x : ℚ) : ℚ :=
  if x = 0 then 0
  else (roundHalfEven (x * 2 ^ (52 - Int.log 2 |x|)) : ℚ) * 2 ^ (Int.log 2 |x| - 52)

/-- `KisScaleVisitor::calcContrib` with the result of every operation on
`double`s passed through `rn`: with `rn = binary64` the arithmetic of the
compiled code, with `rn = id` the exact arithmetic of `calcContrib`.  `ceil`,
`floor`, the conversion of an `int` and the comparisons are exact on
`double`s; `filterStrategy.valueAt` stands for the kernel as the compiled
code evaluates it. -/
def calcContribRounded (rn : K → K) (scale fwidth : K) (srcwidth : Int)
    (filterStrategy : KisScaleFilterStrategy K) (i : Int) : ContribList K :=
  if scale < 1.0 then
    -- Shrinking image
    let width := rn (fwidth / scale)
    let fscale := rn (1.0 / scale)
    let center := rn ((i : K) / scale)
    let begin : Int := ⌈rn (center - width)⌉
    let end_ : Int := ⌊rn (center + width)⌋
    { cap := toInt (rn (rn (width * 2) + 1))
      p := (srcposRange begin end_).map fun (srcpos : Int) =>
        let weight := rn (center - (srcpos : K))
        let weight := rn (filterStrategy.valueAt (rn (weight / fscale)) / fscale)
        let n : Int :=
          if srcpos < 0 then -srcpos
          else if srcpos ≥ srcwidth then (srcwidth - srcpos) + srcwidth - 1
          else srcpos
        { m_pixel := n, m_weight := weight } }
  else
    -- Expanding image
    let center := rn ((i : K) / scale)
    let begin : Int := ⌈rn (center - fwidth)⌉
    let end_ : Int := ⌊rn (center + fwidth)⌋
    { cap := toInt (rn (rn (fwidth * 2) + 1))
      p := (srcposRange begin end_).map fun (srcpos : Int) =>
        let weight := rn (center - (srcpos : K))
        let weight := filterStrategy.valueAt weight
        let n : Int :=
          if srcpos < 0 then -srcpos
          else if srcpos ≥ srcwidth then (srcwidth - srcpos) + srcwidth - 1
          else srcpos
        { m_pixel := n, m_weight := weight } }

end Engine

/-! ## Facts about the kernels -/

section KernelFacts
variable {K : Type} [LinearOrderedField K]

/-- `KisSimpleScaleFilterStrategy::valueAt` as a function of `|t|`. -/
theorem KisSimple_valueAt_abs (t : K) :
    KisSimpleScaleFilterStrategy.valueAt t = if |t| < 1 then (2 * |t| - 3) * |t| * |t| + 1 else 0 := by
  rcases lt_or_le t 0 with h | h
  · rw [abs_of_neg h]
    norm_num [KisSimpleScaleFilterStrategy.valueAt, h]
  · rw [abs_of_nonneg h]
    norm_num [KisSimpleScaleFilterStrategy.valueAt, not_lt.mpr h]

/-- `KisTriangleScaleFilterStrategy::valueAt` as a function of `|t|`. -/
theorem KisTriangle_valueAt_abs (t : K) :
    KisTriangleScaleFilterStrategy.valueAt t = if |t| < 1 then 1 - |t| else 0 := by
  rcases lt_or_le t 0 with h | h
  · rw [abs_of_neg h]
    norm_num [KisTriangleScaleFilterStrategy.valueAt, h]
  · rw [abs_of_nonneg h]
    norm_num [KisTriangleScaleFilterStrategy.valueAt, not_lt.mpr h]

/-- `KisBellScaleFilterStrategy::valueAt` as a function of `|t|`. -/
theorem KisBell_valueAt_abs (t : K) :
    KisBellScaleFilterStrategy.valueAt t =
      if |t| < 1/2 then 3/4 - |t| * |t|
      else if |t| < 3/2 then 1/2 * ((|t| - 3/2) * (|t| - 3/2)) else 0 := by
  rcases lt_or_le t 0 with h | h
  · rw [abs_of_neg h]
    norm_num [KisBellScaleFilterStrategy.valueAt, h]
  · rw [abs_of_nonneg h]
    norm_num [KisBellScaleFilterStrategy.valueAt, not_lt.mpr h]

/-- `KisBSplineScaleFilterStrategy::valueAt` as a function of `|t|`. -/
theorem KisBSpline_valueAt_abs (t : K) :
    KisBSplineScaleFilterStrategy.valueAt t =
      if |t| < 1 then 1/2 * (|t| * |t|) * |t| - |t| * |t| + 2/3
      else if |t| < 2 then 1/6 * ((2 - |t|) * (2 - |t|) * (2 - |t|)) else 0 := by
  rcases lt_or_le t 0 with h | h
  · rw [abs_of_neg h]
    norm_num [KisBSplineScaleFilterStrategy.valueAt, h]
  · rw [abs_of_nonneg h]
    norm_num [KisBSplineScaleFilterStrategy.valueAt, not_lt.mpr h]

/-- `KisLanczos3ScaleFilterStrategy::valueAt` as a function of `|t|`. -/
theorem KisLanczos3_valueAt_abs (sin : K → K) (t : K) :
    KisLanczos3ScaleFilterStrategy.valueAt sin t =
      if |t| < 3 then KisLanczos3ScaleFilterStrategy.sinc sin |t| *
        KisLanczos3ScaleFilterStrategy.sinc sin (|t| / 3) else 0 := by
  rcases lt_or_le t 0 with h | h
  · rw [abs_of_neg h]
    norm_num [KisLanczos3ScaleFilterStrategy.valueAt, h]
  · rw [abs_of_nonneg h]
    norm_num [KisLanczos3ScaleFilterStrategy.valueAt, not_lt.mpr h]

/-- `KisMitchellScaleFilterStrategy::valueAt` as a function of `|t|` and `t * t`, with
the coefficients for `B = C = 1/3` evaluated. -/
theorem KisMitchell_valueAt_abs (t : K) :
    KisMitchellScaleFilterStrategy.valueAt t =
      if |t| < 1 then (7 * (|t| * (t * t)) + (-12) * (t * t) + 16/3) / 6
      else if |t| < 2 then
        ((-7/3) * (|t| * (t * t)) + 12 * (t * t) + (-20) * |t| + 32/3) / 6
      else 0 := by
  rcases lt_or_le t 0 with h | h
  · rw [abs_of_neg h]
    norm_num [KisMitchellScaleFilterStrategy.valueAt, h]
  · rw [abs_of_nonneg h]
    norm_num [KisMitchellScaleFilterStrategy.valueAt, not_lt.mpr h]



/-- C7 (counterexample): the Box kernel is not symmetric at `t = 0.5`:
`valueAt(0.5) = 1` but `valueAt(-0.5) = 0`. -/
theorem box_valueAt_not_symmetric :
    KisBoxScaleFilterStrategy.valueAt (0.5 : ℚ) ≠ KisBoxScaleFilterStrategy.valueAt (-0.5 : ℚ) := by
  norm_num [KisBoxScaleFilterStrategy.valueAt]

/-- C7 (amended): every kernel satisfies `valueAt(t) = valueAt(-t)` for every
`t`, except that for the Box kernel, which is 1 on the half-open interval
`(-0.5, 0.5]`, the points with `|t| = 0.5` are excluded. -/
theorem valueAt_symmetric (sin : K → K) (filterType : enumFilterType) (t : K)
    (h : filterType = enumFilterType.BOX_FILTER → |t| ≠ 0.5) :
    valueAtOf sin filterType t = valueAtOf sin filterType (-t) := by
  cases filterType
  · have ht := h rfl
    have h1 : t ≠ 1 / 2 := by
      intro e; apply ht; rw [e]; norm_num
    have h2 : t ≠ -(1 / 2) := by
      intro e; apply ht; rw [e]; norm_num
    simp only [valueAtOf, KisBoxScaleFilterStrategy.valueAt]
    norm_num
    have e : (-(1 / 2) < t ∧ t ≤ 1 / 2) ↔ (t < 1 / 2 ∧ -t ≤ 1 / 2) := by
      constructor
      · rintro ⟨a, b⟩
        exact ⟨lt_of_le_of_ne b h1, by linarith⟩
      · rintro ⟨a, b⟩
        refine ⟨lt_of_le_of_ne (by linarith) (Ne.symm h2), a.le⟩
    simp only [e]
  · simp only [valueAtOf, KisTriangle_valueAt_abs, abs_neg]
  · simp only [valueAtOf, KisBell_valueAt_abs, abs_neg]
  · simp only [valueAtOf, KisBSpline_valueAt_abs, abs_neg]
  · simp only [valueAtOf, KisSimple_valueAt_abs, abs_neg]
  · simp only [valueAtOf, KisLanczos3_valueAt_abs, abs_neg]
  · simp only [valueAtOf, KisMitchell_valueAt_abs, abs_neg, neg_mul_neg]

/-- C7 (witness): the symmetry theorem applied to the Box kernel at `t = 1/4`. -/
theorem valueAt_symmetric_witness :
    |(1 / 4 : ℚ)| ≠ 0.5 ∧
      valueAtOf (fun _ => (0 : ℚ)) enumFilterType.BOX_FILTER (1 / 4) =
        valueAtOf (fun _ => (0 : ℚ)) enumFilterType.BOX_FILTER (-(1 / 4)) :=
  ⟨by norm_num [abs_of_pos], valueAt_symmetric _ _ _ (fun _ => by norm_num [abs_of_pos])⟩

/-- C8 (counterexample): for the Box kernel `|0.5| ≥ support = 0.5`, yet
`valueAt(0.5) = 1 ≠ 0`. -/
theorem box_valueAt_support_nonzero :
    (supportOf enumFilterType.BOX_FILTER : ℚ) ≤ |(0.5 : ℚ)| ∧
      valueAtOf (fun _ => (0 : ℚ)) enumFilterType.BOX_FILTER 0.5 ≠ 0 := by
  norm_num [supportOf, valueAtOf, KisBoxScaleFilterStrategy.valueAt, abs_of_pos]

/-- C8 (amended): for every kernel and every `t` with `|t| ≥ support`,
`valueAt(t) = 0`, except that for the Box kernel, which is 1 on the half-open
interval `(-0.5, 0.5]`, the point `t = 0.5` is excluded. -/
theorem valueAt_zero_outside_support (sin : K → K) (filterType : enumFilterType) (t : K)
    (ht : supportOf filterType ≤ |t|)
    (h : filterType = enumFilterType.BOX_FILTER → t ≠ 0.5) :
    valueAtOf sin filterType t = 0 := by
  cases filterType
  · have h1 : t ≠ 1 / 2 := by
      intro e; apply h rfl; rw [e]; norm_num
    have ht2 : (1 / 2 : K) ≤ |t| := by
      have := ht
      norm_num [supportOf] at this
      linarith
    simp only [valueAtOf, KisBoxScaleFilterStrategy.valueAt]
    norm_num
    intro a
    rcases le_abs.mp ht2 with c | c
    · exact lt_of_le_of_ne c (Ne.symm h1)
    · linarith
  · have ht2 : ¬ |t| < 1 := by
      have := ht
      norm_num [supportOf] at this
      linarith
    simp only [valueAtOf, KisTriangle_valueAt_abs, if_neg ht2]
  · have ht2 : ¬ |t| < 3 / 2 := by
      have := ht
      norm_num [supportOf] at this
      linarith
    have ht3 : ¬ |t| < 1 / 2 := fun a => ht2 (by linarith)
    simp only [valueAtOf, KisBell_valueAt_abs, if_neg ht2, if_neg ht3]
  · have ht2 : ¬ |t| < 2 := by
      have := ht
      norm_num [supportOf] at this
      linarith
    have ht3 : ¬ |t| < 1 := fun a => ht2 (by linarith)
    simp only [valueAtOf, KisBSpline_valueAt_abs, if_neg ht2, if_neg ht3]
  · have ht2 : ¬ |t| < 1 := by
      have := ht
      norm_num [supportOf] at this
      linarith
    simp only [valueAtOf, KisSimple_valueAt_abs, if_neg ht2]
  · have ht2 : ¬ |t| < 3 := by
      have := ht
      norm_num [supportOf] at this
      linarith
    simp only [valueAtOf, KisLanczos3_valueAt_abs, if_neg ht2]
  · have ht2 : ¬ |t| < 2 := by
      have := ht
      norm_num [supportOf] at this
      linarith
    have ht3 : ¬ |t| < 1 := fun a => ht2 (by linarith)
    simp only [valueAtOf, KisMitchell_valueAt_abs, if_neg ht2, if_neg ht3]

/-- C8 (witness): the support theorem applied to the Box kernel at `t = -0.5`
and checked against the source definition. -/
theorem valueAt_zero_outside_support_witness :
    (supportOf enumFilterType.BOX_FILTER : ℚ) ≤ |(-0.5 : ℚ)| ∧
      valueAtOf (fun _ => (0 : ℚ)) enumFilterType.BOX_FILTER (-0.5) = 0 :=
  ⟨by norm_num [supportOf, abs_of_pos],
    valueAt_zero_outside_support _ _ _ (by norm_num [supportOf, abs_of_pos])
      (fun _ => by norm_num)⟩

/-- C9: the Triangle, Bell, B-Spline and SimpleCubic kernels are the
piecewise polynomials of the kernel table, evaluated at `u = |t|`. -/
theorem polynomial_kernel_table (t : K) :
    (KisTriangleScaleFilterStrategy.valueAt t = if |t| < 1 then 1 - |t| else 0) ∧
    (KisBellScaleFilterStrategy.valueAt t =
      if |t| < 0.5 then 0.75 - |t| ^ 2
      else if |t| < 1.5 then 0.5 * (|t| - 1.5) ^ 2 else 0) ∧
    (KisBSplineScaleFilterStrategy.valueAt t =
      if |t| < 1 then 0.5 * |t| ^ 3 - |t| ^ 2 + 2 / 3
      else if |t| < 2 then (1 / 6) * (2 - |t|) ^ 3 else 0) ∧
    (KisSimpleScaleFilterStrategy.valueAt t =
      if |t| < 1 then (2 * |t| - 3) * |t| ^ 2 + 1 else 0) := by
  refine ⟨KisTriangle_valueAt_abs t, ?_, ?_, ?_⟩
  · rw [KisBell_valueAt_abs]
    norm_num
    split_ifs <;> ring
  · rw [KisBSpline_valueAt_abs]
    split_ifs <;> ring
  · rw [KisSimple_valueAt_abs]
    split_ifs <;> ring

/-- C10: the Mitchell kernel is the Mitchell-Netravali cubic with
`B = C = 1/3` evaluated at `u = |t|`; `valueAt(0) = 8/9`,
`valueAt(1) = valueAt(-1) = 1/18`, the second piece vanishes at `u = 2`, and
the two pieces agree at `u = 1`. -/
theorem mitchell_is_mitchellNetravali (t : K) :
    KisMitchellScaleFilterStrategy.valueAt t = mitchellNetravali (1 / 3) (1 / 3) |t| ∧
    KisMitchellScaleFilterStrategy.valueAt (0 : K) = 8 / 9 ∧
    KisMitchellScaleFilterStrategy.valueAt (1 : K) = 1 / 18 ∧
    KisMitchellScaleFilterStrategy.valueAt (-1 : K) = 1 / 18 ∧
    mitchellNetravaliOuter (1 / 3 : K) (1 / 3) 2 = 0 ∧
    mitchellNetravaliInner (1 / 3 : K) (1 / 3) 1 = mitchellNetravaliOuter (1 / 3) (1 / 3) 1 := by
  refine ⟨?_, ?_, ?_, ?_, ?_, ?_⟩
  · rw [KisMitchell_valueAt_abs]
    have e : t * t = |t| * |t| := (abs_mul_abs_self t).symm
    simp only [mitchellNetravali, mitchellNetravaliInner, mitchellNetravaliOuter, e]
    split_ifs <;> ring
  · norm_num [KisMitchell_valueAt_abs]
  · norm_num [KisMitchell_valueAt_abs]
  · norm_num [KisMitchell_valueAt_abs]
  · norm_num [mitchellNetravaliOuter]
  · norm_num [mitchellNetravaliInner, mitchellNetravaliOuter]
/-- Every kernel has a support of at least `1/2`. -/
theorem supportOf_ge_half (filterType : enumFilterType) : (1 / 2 : K) ≤ supportOf filterType := by
  cases filterType <;> norm_num [supportOf]

/-- The half-width of the window is not negative for a positive scale. -/
theorem windowHalfWidth_nonneg {scale fwidth : K} (hs : 0 < scale) (hf : 0 ≤ fwidth) :
    0 ≤ windowHalfWidth scale fwidth := by
  unfold windowHalfWidth
  split_ifs
  · exact div_nonneg hf hs.le
  · exact hf

end KernelFacts

/-! ## Facts about the engine -/

section EngineFacts
variable {K : Type} [LinearOrderedField K] [FloorRing K]

/-- `allDefined` keeps the length. -/
theorem allDefined_length {α : Type} : ∀ {l : List (Option α)} {r : List α},
    allDefined l = some r → r.length = l.length
  | [], r, h => by
    simp only [allDefined, Option.some.injEq] at h
    subst h
    rfl
  | none :: l, r, h => by simp [allDefined] at h
  | some a :: l, r, h => by
    simp only [allDefined] at h
    cases hl : allDefined l with
    | none => simp [hl] at h
    | some r' =>
      simp only [hl, Option.some.injEq] at h
      subst h
      simp [allDefined_length hl]

/-- Every element of the result of `allDefined` was a defined element of the input. -/
theorem allDefined_mem {α : Type} : ∀ {l : List (Option α)} {r : List α},
    allDefined l = some r → ∀ v ∈ r, some v ∈ l
  | [], r, h => by
    simp only [allDefined, Option.some.injEq] at h
    subst h
    simp
  | none :: l, r, h => by simp [allDefined] at h
  | some a :: l, r, h => by
    simp only [allDefined] at h
    cases hl : allDefined l with
    | none => simp [hl] at h
    | some r' =>
      simp only [hl, Option.some.injEq] at h
      subst h
      intro v hv
      rcases List.mem_cons.mp hv with e | e
      · subst e
        exact List.mem_cons_self _ _
      · exact List.mem_cons_of_mem _ (allDefined_mem hl v e)

/-- `allDefined` of a list whose elements are all `some a`. -/
theorem allDefined_const {α : Type} (a : α) : ∀ (l : List (Option α)),
    (∀ o ∈ l, o = some a) → allDefined l = some (List.replicate l.length a)
  | [], _ => rfl
  | o :: l, h => by
    have ho : o = some a := h o (List.mem_cons_self _ _)
    subst ho
    have hl := allDefined_const a l (fun o ho => h o (List.mem_cons_of_mem _ ho))
    simp [allDefined, hl, List.replicate_succ]

/-- Every sample `horizSample` produces lies in `[0, 255]`. -/
theorem horizSample_range {width pixelSize : Nat} {tmp : List Int} {cx : ContribList K}
    {channel : Nat} {v : Int} (h : horizSample width pixelSize tmp cx channel = some v) :
    0 ≤ v ∧ v ≤ 255 := by
  unfold horizSample at h
  split at h
  · exact absurd h (by simp)
  · split at h
    · exact absurd h (by simp)
    · dsimp only at h
      split at h
      · exact absurd h (by simp)
      · simp only [Option.some.injEq] at h
        subst h
        split_ifs <;> omega


/-- The number of samples produced by a loop over `l` with an inner loop over `n` channels. -/
theorem length_flatMap_range_map {α β : Type} (n : Nat) (f : α → Nat → β) : ∀ (l : List α),
    (l.flatMap fun x => (List.range n).map (f x)).length = l.length * n
  | [] => by simp
  | a :: l => by
    simp only [List.flatMap_cons, List.length_append, List.length_map, List.length_range,
      length_flatMap_range_map n f l, List.length_cons]
    ring

/-- A row produced by `scaleRow` has one sample per output column and
channel, each in `[0, 255]`. -/
theorem scaleRow_some {dev : KisPaintDevice} {yscale fwidth : K}
    {fs : KisScaleFilterStrategy K} {contribX : List (ContribList K)} {y : Nat}
    {row : List Int} (h : scaleRow dev yscale fwidth fs contribX y = some row) :
    row.length = contribX.length * dev.pixelSize ∧ ∀ v ∈ row, 0 ≤ v ∧ v ≤ 255 := by
  unfold scaleRow at h
  dsimp only at h
  split at h
  · exact absurd h (by simp)
  · refine ⟨?_, ?_⟩
    · rw [allDefined_length h, length_flatMap_range_map]
    · intro v hv
      have hm := allDefined_mem h v hv
      rcases List.mem_flatMap.mp hm with ⟨cx, _, hcx⟩
      rcases List.mem_map.mp hcx with ⟨channel, _, hch⟩
      exact horizSample_range hch

/-- The rows of a completed row loop: one per target row, each produced by
`scaleRow`, and the flag was never seen raised. -/
theorem rowLoop_some {dev : KisPaintDevice} {yscale fwidth : K}
    {fs : KisScaleFilterStrategy K} {contribX : List (ContribList K)}
    {cancelRequested : Nat → Bool} : ∀ {ys : List Nat} {rows : List (List Int)},
    rowLoop dev yscale fwidth fs contribX cancelRequested ys = some (some rows) →
    rows.length = ys.length ∧
      (∀ row ∈ rows, ∃ y ∈ ys, scaleRow dev yscale fwidth fs contribX y = some row) ∧
      ∀ y ∈ ys, cancelRequested y = false
  | [], rows, h => by
    simp only [rowLoop, Option.some.injEq] at h
    subst h
    simp
  | y :: ys, rows, h => by
    simp only [rowLoop] at h
    split at h
    · exact absurd h (by simp)
    · rename_i hc
      split at h
      · exact absurd h (by simp)
      · rename_i row hrow
        split at h
        · exact absurd h (by simp)
        · exact absurd h (by simp)
        · rename_i rows' hrows
          simp only [Option.some.injEq] at h
          subst h
          obtain ⟨h1, h2, h3⟩ := rowLoop_some hrows
          refine ⟨by simp [h1], ?_, ?_⟩
          · intro r hr
            rcases List.mem_cons.mp hr with e | e
            · subst e
              exact ⟨y, List.mem_cons_self _ _, hrow⟩
            · obtain ⟨y', hy', hs⟩ := h2 r e
              exact ⟨y', List.mem_cons_of_mem _ hy', hs⟩
          · intro y' hy'
            rcases List.mem_cons.mp hy' with e | e
            · subst e
              simpa using hc
            · exact h3 y' e

/-- What a call of `scale` that writes an output has done. -/
theorem scale_written {sin : K → K} {dev : KisPaintDevice} {xscale yscale : K}
    {cancelRequested : Nat → Bool} {filterType : enumFilterType} {targetW targetH : Int}
    {newData : List Int}
    (h : scale sin dev xscale yscale cancelRequested filterType
      = some (Outcome.written targetW targetH newData)) :
    ¬ (xscale = 1 ∧ yscale = 1) ∧
    targetW = QABS (qRound (xscale * (dev.width : K))) ∧
    targetH = QABS (qRound (yscale * (dev.height : K))) ∧
    cancelRequested targetH.toNat = false ∧
    ∃ rows, rowLoop dev yscale (supportOf filterType) (newStrategy sin filterType)
        ((List.range targetW.toNat).map fun (x : Nat) =>
          calcContrib xscale (supportOf filterType) dev.width (newStrategy sin filterType) (x : Int))
        cancelRequested (List.range targetH.toNat) = some (some rows) ∧
      newData = rows.flatten := by
  unfold scale at h
  dsimp only at h
  split at h
  · exact absurd h (by simp)
  · rename_i hne
    split at h
    · exact absurd h (by simp)
    · exact absurd h (by simp)
    · rename_i rows hrows
      split at h
      · exact absurd h (by simp)
      · rename_i hfin
        simp only [Option.some.injEq, Outcome.written.injEq] at h
        obtain ⟨h1, h2, h3⟩ := h
        simp only [Int.cast_natCast] at h1 h2 hrows hfin
        refine ⟨?_, h1.symm, h2.symm, ?_, rows, ?_, h3.symm⟩
        · norm_num at hne ⊢
          exact hne
        · rw [← h2]
          simpa using hfin
        · rw [← h1, ← h2]
          exact hrows


/-- The window positions `-1, 0, 1`. -/
theorem srcposRange_neg_one_one : srcposRange (-1) 1 = [-1, 0, 1] := by decide

/-- The single window position `0`. -/
theorem srcposRange_zero_zero : srcposRange 0 0 = [0] := by decide

/-- The Box list of target index 0 when a 2-sample axis is halved. -/
theorem calcContrib_box_half_zero (sin : K → K) :
    (calcContrib (0.5 : K) (supportOf enumFilterType.BOX_FILTER) 2
      (newStrategy sin enumFilterType.BOX_FILTER) 0).p
      = [⟨1, 1 / 2⟩, ⟨0, 1 / 2⟩, ⟨1, 0⟩] := by
  have hc : ⌈(-1 : K)⌉ = -1 := by
    rw [Int.ceil_eq_iff]; norm_num
  have hf : ⌊(1 : K)⌋ = 1 := Int.floor_one
  norm_num [calcContrib, supportOf, newStrategy, valueAtOf, hc, hf, srcposRange_neg_one_one,
    KisBoxScaleFilterStrategy.valueAt]

/-- The Box list of target index 0 of a 1-sample axis at scale 1. -/
theorem calcContrib_box_one_zero (sin : K → K) :
    (calcContrib (1 : K) (supportOf enumFilterType.BOX_FILTER) 1
      (newStrategy sin enumFilterType.BOX_FILTER) 0).p
      = [⟨0, 1⟩] := by
  have hc : ⌈(-(1 / 2) : K)⌉ = 0 := by
    rw [Int.ceil_eq_iff]; norm_num
  have hf : ⌊(1 / 2 : K)⌋ = 0 := by
    rw [Int.floor_eq_iff]; norm_num
  norm_num [calcContrib, supportOf, newStrategy, valueAtOf, hc, hf, srcposRange_zero_zero,
    KisBoxScaleFilterStrategy.valueAt]


/-- Row 0 of the 2x1 image `[a, b]` scaled by `(0.5, 1.0)` with the Box kernel. -/
theorem scaleRow_box_two_by_one (sin : K → K) (a b : Int) (ha : 0 ≤ a ∧ a ≤ 255)
    (hb : 0 ≤ b ∧ b ≤ 255) :
    scaleRow ⟨2, 1, 1, [a, b]⟩ (1.0 : K) (supportOf enumFilterType.BOX_FILTER)
      (newStrategy sin enumFilterType.BOX_FILTER)
      [calcContrib (0.5 : K) (supportOf enumFilterType.BOX_FILTER) 2
        (newStrategy sin enumFilterType.BOX_FILTER) 0] 0
      = some [(a + b + 1) / 2] := by
  have hY := calcContrib_box_one_zero (K := K) sin
  have hX := calcContrib_box_half_zero (K := K) sin
  have e1 : (1.0 : K) = 1 := by norm_num
  unfold scaleRow
  simp only [e1, Nat.cast_one, Nat.cast_zero, Nat.cast_ofNat]
  have hv0 : vertSample (K := K) ⟨2, 1, 1, [a, b]⟩ (calcContrib (1 : K) (supportOf enumFilterType.BOX_FILTER) 1
      (newStrategy sin enumFilterType.BOX_FILTER) 0) 0 0 = some a := by
    unfold vertSample
    rw [hY]
    simp [KisPaintDevice.readBytes, CLAMP]
    omega
  have hv1 : vertSample (K := K) ⟨2, 1, 1, [a, b]⟩ (calcContrib (1 : K) (supportOf enumFilterType.BOX_FILTER) 1
      (newStrategy sin enumFilterType.BOX_FILTER) 0) 1 0 = some b := by
    unfold vertSample
    rw [hY]
    simp [KisPaintDevice.readBytes, CLAMP]
    omega
  have r2 : List.range 2 = [0, 1] := by decide
  have r1 : List.range 1 = [0] := by decide
  have hh : horizSample (K := K) 2 1 [a, b] (calcContrib (0.5 : K) (supportOf enumFilterType.BOX_FILTER) 2
      (newStrategy sin enumFilterType.BOX_FILTER) 0) 0 = some ((a + b + 1) / 2) := by
    unfold horizSample
    rw [hX]
    have hfl : ⌊(0.0 : K) + (b : K) * 2⁻¹ + (a : K) * 2⁻¹ + 0.5⌋ = (a + b + 1) / 2 := by
      rw [Int.floor_eq_iff]
      have h1 : 2 * ((a + b + 1) / 2) ≤ a + b + 1 := by omega
      have h2 : a + b + 1 < 2 * ((a + b + 1) / 2) + 2 := by omega
      have h1K : (2 : K) * (((a + b + 1) / 2 : Int) : K) ≤ (a : K) + b + 1 := by
        exact_mod_cast h1
      have h2K : (a : K) + b + 1 < 2 * (((a + b + 1) / 2 : Int) : K) + 2 := by
        exact_mod_cast h2
      constructor
      · norm_num
        linarith
      · norm_num
        linarith
    simp [qRound]
    rw [hfl]
    split_ifs <;> omega
  simp only [r2, r1, List.flatMap_cons, List.flatMap_nil, List.map_cons, List.map_nil,
    List.append_nil, List.singleton_append, hv0, hv1, allDefined, hh]


/-- The 2x1 image `[a, b]` scaled by `(0.5, 1.0)` with the Box kernel. -/
theorem scale_box_two_by_one (sin : K → K) (a b : Int) (ha : 0 ≤ a ∧ a ≤ 255)
    (hb : 0 ≤ b ∧ b ≤ 255) (cancelRequested : Nat → Bool) (hc : cancelRequested 0 = false)
    (hc1 : cancelRequested 1 = false) :
    scale sin ⟨2, 1, 1, [a, b]⟩ (0.5 : K) 1.0 cancelRequested enumFilterType.BOX_FILTER
      = some (Outcome.written 1 1 [(a + b + 1) / 2]) := by
  have hrow := scaleRow_box_two_by_one (K := K) sin a b ha hb
  have hW : qRound ((0.5 : K) * ((2 : Nat) : K)) = 1 := by
    unfold qRound
    rw [Int.floor_eq_iff]
    norm_num
  have hH : qRound ((1.0 : K) * ((1 : Nat) : K)) = 1 := by
    unfold qRound
    rw [Int.floor_eq_iff]
    norm_num
  have hne : ¬ ((0.5 : K) = 1.0 ∧ (1.0 : K) = 1.0) := by norm_num
  have r1 : List.range 1 = [0] := by decide
  unfold scale
  simp only [hne, if_false, Int.cast_natCast, hW, hH, QABS, KisScaleFilterStrategy.support,
    newStrategy]
  norm_num [newStrategy] at hrow
  norm_num [r1, rowLoop, hc, hc1, hrow]


/-- The length of a buffer made of rows of equal length. -/
theorem length_flatten_of_forall {α : Type} (m : Nat) : ∀ (rows : List (List α)),
    (∀ row ∈ rows, row.length = m) → rows.flatten.length = rows.length * m
  | [], _ => by simp
  | r :: rows, h => by
    have hr := h r (List.mem_cons_self _ _)
    have ih := length_flatten_of_forall m rows (fun row hrow => h row (List.mem_cons_of_mem _ hrow))
    simp only [List.flatten_cons, List.length_append, hr, ih, List.length_cons]
    ring

/-- The target extent is non-negative for a non-negative scale factor. -/
theorem qRound_nonneg {d : K} (hd : 0 ≤ d) : 0 ≤ qRound d := by
  unfold qRound
  apply Int.floor_nonneg.mpr
  norm_num
  linarith

/-- `qRound` is rounding half up. -/
theorem qRound_eq_round (d : K) : qRound d = round d := by
  unfold qRound
  rw [round_eq]
  norm_num

/-- C1: whenever `scale` completes and writes its output buffer, every
sample of `newData` is an integer in `[0, 255]`. -/
theorem scale_output_in_range (sin : K → K) (dev : KisPaintDevice) (xscale yscale : K)
    (cancelRequested : Nat → Bool) (filterType : enumFilterType) (targetW targetH : Int)
    (newData : List Int)
    (h : scale sin dev xscale yscale cancelRequested filterType
      = some (Outcome.written targetW targetH newData)) :
    ∀ s ∈ newData, 0 ≤ s ∧ s ≤ 255 := by
  obtain ⟨_, _, _, _, rows, hrows, hnd⟩ := scale_written h
  obtain ⟨_, hmem, _⟩ := rowLoop_some hrows
  intro s hs
  rw [hnd] at hs
  obtain ⟨row, hrow, hsrow⟩ := List.mem_flatten.mp hs
  obtain ⟨y, _, hy⟩ := hmem row hrow
  exact (scaleRow_some hy).2 s hsrow

/-- C1 (witness): the range law at the 2x1 image `[0, 255]` scaled by
`(0.5, 1.0)` with the Box kernel. -/
theorem scale_output_in_range_witness :
    scale (fun _ => (0 : ℚ)) ⟨2, 1, 1, [0, 255]⟩ 0.5 1.0 (fun _ => false)
        enumFilterType.BOX_FILTER = some (Outcome.written 1 1 [128]) ∧
      ∀ s ∈ [(128 : Int)], 0 ≤ s ∧ s ≤ 255 :=
  ⟨scale_box_two_by_one _ 0 255 (by decide) (by decide) _ rfl rfl,
    scale_output_in_range _ _ _ _ _ _ _ _ _
      (scale_box_two_by_one (fun _ => (0 : ℚ)) 0 255 (by decide) (by decide) (fun _ => false) rfl rfl)⟩

/-- C2: for positive scale factors, the output written by `scale` has
exactly `round(xscale * width)` columns and `round(yscale * height)` rows
(`round` rounds half up), with `pixelSize` samples per pixel. -/
theorem scale_output_dimensions (sin : K → K) (dev : KisPaintDevice) (xscale yscale : K)
    (cancelRequested : Nat → Bool) (filterType : enumFilterType) (targetW targetH : Int)
    (newData : List Int) (hx : 0 < xscale) (hy : 0 < yscale)
    (h : scale sin dev xscale yscale cancelRequested filterType
      = some (Outcome.written targetW targetH newData)) :
    targetW = round (xscale * (dev.width : K)) ∧
    targetH = round (yscale * (dev.height : K)) ∧
    newData.length = targetW.toNat * targetH.toNat * dev.pixelSize := by
  obtain ⟨_, hW, hH, _, rows, hrows, hnd⟩ := scale_written h
  obtain ⟨hlen, hmem, _⟩ := rowLoop_some hrows
  have hw0 : 0 ≤ qRound (xscale * (dev.width : K)) :=
    qRound_nonneg (mul_nonneg hx.le (Nat.cast_nonneg _))
  have hh0 : 0 ≤ qRound (yscale * (dev.height : K)) :=
    qRound_nonneg (mul_nonneg hy.le (Nat.cast_nonneg _))
  refine ⟨?_, ?_, ?_⟩
  · rw [hW, QABS, if_pos hw0, qRound_eq_round]
  · rw [hH, QABS, if_pos hh0, qRound_eq_round]
  · have hrowlen : ∀ row ∈ rows, row.length = targetW.toNat * dev.pixelSize := by
      intro row hrow
      obtain ⟨y, _, hy⟩ := hmem row hrow
      rw [(scaleRow_some hy).1]
      simp
    rw [hnd, length_flatten_of_forall _ rows hrowlen, hlen, List.length_range]
    ring

/-- C2 (witness): the dimension law at the 2x1 image `[0, 255]` scaled by
`(0.5, 1.0)` with the Box kernel: the output is 1x1. -/
theorem scale_output_dimensions_witness :
    (1 : Int) = round ((0.5 : ℚ) * ((2 : Nat) : ℚ)) ∧
    (1 : Int) = round ((1.0 : ℚ) * ((1 : Nat) : ℚ)) ∧
    [(128 : Int)].length = (1 : Int).toNat * (1 : Int).toNat * 1 :=
  scale_output_dimensions (fun _ => (0 : ℚ)) ⟨2, 1, 1, [0, 255]⟩ 0.5 1.0 (fun _ => false)
    enumFilterType.BOX_FILTER 1 1 [128] (by norm_num) (by norm_num)
    (scale_box_two_by_one (fun _ => (0 : ℚ)) 0 255 (by decide) (by decide) (fun _ => false) rfl rfl)

/-- With unit scale factors `scale` returns at once. -/
theorem scale_unit (sin : K → K) (dev : KisPaintDevice) (cancelRequested : Nat → Bool)
    (filterType : enumFilterType) :
    scale sin dev (1 : K) 1 cancelRequested filterType = some Outcome.unchanged := by
  norm_num [scale]

/-- C3: with `xscale = 1.0` and `yscale = 1.0`, `scale` returns before
building any contribution list or writing anything, and the image after
the call is the image before it. -/
theorem scale_identity (sin : K → K) (dev : KisPaintDevice) (cancelRequested : Nat → Bool)
    (filterType : enumFilterType) :
    scale sin dev (1.0 : K) 1.0 cancelRequested filterType = some Outcome.unchanged ∧
    (scale sin dev (1.0 : K) 1.0 cancelRequested filterType).map (imageAfter dev) = some dev := by
  have e : (1.0 : K) = 1 := by norm_num
  rw [e, scale_unit]
  exact ⟨rfl, rfl⟩

/-- C4 (counterexample): with `xscale = 0` and `yscale = 0` the call is not
rejected: it completes, writes an empty output and the image is not left
unchanged. -/
theorem scale_zero_not_rejected :
    (0 : ℚ) ≤ 0 ∧
    scale (fun _ => (0 : ℚ)) ⟨1, 1, 1, [7]⟩ 0 0 (fun _ => false) enumFilterType.BOX_FILTER
      = some (Outcome.written 0 0 []) ∧
    imageAfter ⟨1, 1, 1, [7]⟩ (Outcome.written 0 0 []) ≠ ⟨1, 1, 1, [7]⟩ := by
  have hz : ⌊(0.5 : ℚ)⌋ = 0 := by
    rw [Int.floor_eq_iff]; norm_num
  have hne : ¬ (0 : ℚ) = 1.0 := by norm_num
  refine ⟨le_refl _, ?_, by decide⟩
  simp [scale, qRound, QABS, rowLoop, hz, hne]

/-- C4 (amended): `scale` does not validate its scale factors and has no
invalid-scale outcome.  It returns without doing anything exactly when
`xscale = 1` and `yscale = 1`; with `xscale = 0` and `yscale = 0` it
completes, for every image and kernel, and unless it is cancelled it writes
an empty output. -/
theorem scale_no_validation (sin : K → K) (dev : KisPaintDevice) (xscale yscale : K)
    (cancelRequested : Nat → Bool) (filterType : enumFilterType) :
    (scale sin dev xscale yscale cancelRequested filterType = some Outcome.unchanged
      ↔ (xscale = 1 ∧ yscale = 1)) ∧
    scale sin dev (0 : K) 0 cancelRequested filterType
      = some (if cancelRequested 0 then Outcome.cancelled else Outcome.written 0 0 []) := by
  have hz : ⌊(0.5 : K)⌋ = 0 := by
    rw [Int.floor_eq_iff]; norm_num
  refine ⟨⟨?_, ?_⟩, ?_⟩
  · intro h
    by_contra hne
    unfold scale at h
    dsimp only at h
    have hne2 : ¬ (xscale = 1.0 ∧ yscale = 1.0) := by
      norm_num
      norm_num at hne
      exact hne
    rw [if_neg hne2] at h
    split at h
    · simp at h
    · simp at h
    · split at h <;> simp at h
  · rintro ⟨rfl, rfl⟩
    norm_num [scale]
  · have hne : ¬ (0 : K) = 1.0 := by norm_num
    simp only [scale, qRound, QABS, hz, hne, false_and, if_false, zero_mul, zero_add,
      le_refl, ge_iff_le, if_true, Int.toNat_zero, List.range_zero, List.map_nil, rowLoop,
      List.flatten_nil]
    split_ifs <;> rfl

/-- C6: the 2x1 single-channel image `[a, b]` of 8-bit samples, scaled by
`(0.5, 1.0)` with the Box kernel and not cancelled, becomes the 1x1 image whose sample is
`(a + b) / 2` rounded half up; it differs from `(a + b) / 2` by at most
`1/2`. -/
theorem box_decimation_average (sin : K → K) (a b : Int) (ha : 0 ≤ a ∧ a ≤ 255)
    (hb : 0 ≤ b ∧ b ≤ 255) (cancelRequested : Nat → Bool)
    (hc : ∀ k, cancelRequested k = false) :
    scale sin ⟨2, 1, 1, [a, b]⟩ (0.5 : K) 1.0 cancelRequested enumFilterType.BOX_FILTER
      = some (Outcome.written 1 1 [(a + b + 1) / 2]) ∧
    |(((a + b + 1) / 2 : Int) : K) - ((a : K) + (b : K)) / 2| ≤ 1 / 2 := by
  refine ⟨scale_box_two_by_one sin a b ha hb cancelRequested (hc 0) (hc 1), ?_⟩
  have h1 : 2 * ((a + b + 1) / 2) ≤ a + b + 1 := by omega
  have h2 : a + b ≤ 2 * ((a + b + 1) / 2) := by omega
  have h1K : (2 : K) * (((a + b + 1) / 2 : Int) : K) ≤ (a : K) + b + 1 := by
    exact_mod_cast h1
  have h2K : (a : K) + b ≤ 2 * (((a + b + 1) / 2 : Int) : K) := by
    exact_mod_cast h2
  rw [abs_le]
  constructor <;> linarith

/-- C6 (witness): `[0, 255]` gives the single sample 128. -/
theorem box_decimation_average_witness :
    scale (fun _ => (0 : ℚ)) ⟨2, 1, 1, [0, 255]⟩ 0.5 1.0 (fun _ => false)
        enumFilterType.BOX_FILTER = some (Outcome.written 1 1 [128]) ∧
    |((128 : Int) : ℚ) - (((0 : Int) : ℚ) + ((255 : Int) : ℚ)) / 2| ≤ 1 / 2 :=
  box_decimation_average (fun _ => (0 : ℚ)) 0 255 (by decide) (by decide) (fun _ => false)
    (fun _ => rfl)

/-! ### Constant images -/

/-- The loop variable `srcpos` takes exactly the integers from `begin` to `end`. -/
theorem mem_srcposRange {a b s : Int} : s ∈ srcposRange a b ↔ a ≤ s ∧ s ≤ b := by
  unfold srcposRange
  simp only [List.mem_map, List.mem_range]
  constructor
  · rintro ⟨j, hj, rfl⟩
    omega
  · rintro ⟨h1, h2⟩
    refine ⟨(s - a).toNat, ?_, ?_⟩ <;> omega

/-- The loop over `srcpos` runs at least once when `begin ≤ end`. -/
theorem srcposRange_ne_nil {a b : Int} (h : a ≤ b) : srcposRange a b ≠ [] := by
  intro e
  have : a ∈ srcposRange a b := mem_srcposRange.mpr ⟨le_refl _, h⟩
  rw [e] at this
  exact absurd this (List.not_mem_nil _)

/-- Every entry of a contribution list stems from a window position. -/
theorem mem_calcContrib {scale fwidth : K} {srcwidth : Int} {fs : KisScaleFilterStrategy K}
    {i : Int} {c : Contrib K} (hc : c ∈ (calcContrib scale fwidth srcwidth fs i).p) :
    ∃ srcpos : Int,
      ⌈(i : K) / scale - windowHalfWidth scale fwidth⌉ ≤ srcpos ∧
      srcpos ≤ ⌊(i : K) / scale + windowHalfWidth scale fwidth⌋ ∧
      c.m_pixel = reflectIndex srcwidth srcpos := by
  unfold calcContrib at hc
  unfold windowHalfWidth reflectIndex
  split_ifs at hc ⊢ with hs
  · dsimp only at hc
    obtain ⟨srcpos, hmem, rfl⟩ := List.mem_map.mp hc
    obtain ⟨h1, h2⟩ := mem_srcposRange.mp hmem
    exact ⟨srcpos, h1, h2, rfl⟩
  · dsimp only at hc
    obtain ⟨srcpos, hmem, rfl⟩ := List.mem_map.mp hc
    obtain ⟨h1, h2⟩ := mem_srcposRange.mp hmem
    exact ⟨srcpos, h1, h2, rfl⟩

/-- A window of half-width at least `1/2` contains an integer. -/
theorem window_nonempty (center h : K) (hh : 1 / 2 ≤ h) : ⌈center - h⌉ ≤ ⌊center + h⌋ := by
  have h1 : ⌈center - h⌉ ≤ ⌊center - h + 1⌋ := by
    rw [Int.floor_add_one]
    exact (Int.ceil_le_floor_add_one _)
  exact h1.trans (Int.floor_mono (by linarith))

/-- For a positive scale and a support of at least `1/2`, the contribution
list is not empty. -/
theorem calcContrib_ne_nil {scale fwidth : K} (srcwidth : Int) (fs : KisScaleFilterStrategy K)
    (i : Int) (hs : 0 < scale) (hf : 1 / 2 ≤ fwidth) :
    (calcContrib scale fwidth srcwidth fs i).p ≠ [] := by
  unfold calcContrib
  split_ifs with h1
  · dsimp only
    intro e
    have hw : 1 / 2 ≤ fwidth / scale := by
      have h1' : scale < 1 := by
        norm_num at h1
        exact h1
      rw [le_div_iff₀ hs]
      nlinarith
    exact srcposRange_ne_nil (window_nonempty _ _ hw) (List.map_eq_nil_iff.mp e)
  · dsimp only
    intro e
    exact srcposRange_ne_nil (window_nonempty _ _ hf) (List.map_eq_nil_iff.mp e)


/-- Reading a constant buffer inside its bounds. -/
theorem getD_replicate_of_lt {α : Type} (n i : Nat) (v d : α) (h : i < n) :
    (List.replicate n v).getD i d = v := by
  simp [List.getD_eq_getElem?_getD, List.getElem?_replicate, h]

/-- A row read from a constant image is constant. -/
theorem readBytes_const_getD (w h ps : Nat) (v : Int) (r j : Nat) (hr : r < h) (hj : j < w * ps) :
    ((⟨w, h, ps, List.replicate (w * h * ps) v⟩ : KisPaintDevice).readBytes r).getD j 0 = v := by
  unfold KisPaintDevice.readBytes
  simp only [List.drop_replicate, List.take_replicate]
  apply getD_replicate_of_lt
  have h1 : (r + 1) * (w * ps) ≤ h * (w * ps) := Nat.mul_le_mul_right _ hr
  have h2 : w * h * ps = h * (w * ps) := by ring
  have h3 : (r + 1) * (w * ps) = r * (w * ps) + w * ps := by ring
  rw [h2]
  have : w * ps ≤ h * (w * ps) - r * (w * ps) := by omega
  rw [Nat.min_eq_left this]
  exact hj

/-- The index of channel `channel` of pixel `x` lies inside a row of `w` pixels. -/
theorem index_lt_mul {x w ps channel : Nat} (hx : x < w) (hch : channel < ps) :
    x * ps + channel < w * ps := by
  have h1 : (x + 1) * ps ≤ w * ps := Nat.mul_le_mul_right _ hx
  have h2 : (x + 1) * ps = x * ps + ps := by ring
  omega

/-- The vertical pass of a constant image yields the constant. -/
theorem vertSample_const (w h ps : Nat) (v : Int) (hv : 0 ≤ v ∧ v ≤ 255)
    (contribY : ContribList K) (hne : contribY.p ≠ [])
    (hin : ∀ c ∈ contribY.p, 0 ≤ c.m_pixel ∧ c.m_pixel < (h : Int))
    (x channel : Nat) (hx : x < w) (hch : channel < ps) :
    vertSample ⟨w, h, ps, List.replicate (w * h * ps) v⟩ contribY x channel = some v := by
  have hread : ∀ c ∈ contribY.p,
      ((⟨w, h, ps, List.replicate (w * h * ps) v⟩ : KisPaintDevice).readBytes
        c.m_pixel.toNat).getD (x * ps + channel) 0 = v := by
    intro c hc
    have := hin c hc
    exact readBytes_const_getD w h ps v _ _ (by omega) (index_lt_mul hx hch)
  unfold vertSample
  cases hp : contribY.p with
  | nil => exact absurd hp hne
  | cons c0 tl =>
    have hc0 : c0 ∈ contribY.p := by rw [hp]; exact List.mem_cons_self _ _
    have h0 := hin c0 hc0
    have hnot : ¬ (c0.m_pixel < 0 ∨ c0.m_pixel ≥ ((⟨w, h, ps, List.replicate (w * h * ps) v⟩ :
        KisPaintDevice).height : Int)) := by
      simp only [not_or, not_lt, ge_iff_le, not_le]
      exact h0
    simp only [if_neg hnot]
    rw [← hp, hread c0 hc0]
    have hfold : ∀ (l : List (Contrib K)) (s : Bool × K), (∀ c ∈ l, c ∈ contribY.p) →
        (l.foldl (fun (s : Bool × K) c =>
          if ¬ (c.m_pixel < 0 ∨ c.m_pixel ≥ ((⟨w, h, ps, List.replicate (w * h * ps) v⟩ :
              KisPaintDevice).height : Int)) then
            let pel2 : Int :=
              ((⟨w, h, ps, List.replicate (w * h * ps) v⟩ : KisPaintDevice).readBytes
                c.m_pixel.toNat).getD
                (x * (⟨w, h, ps, List.replicate (w * h * ps) v⟩ : KisPaintDevice).pixelSize
                  + channel) 0
            (s.1 || decide (pel2 ≠ v), s.2 + (pel2 : K) * c.m_weight)
          else s) s).1 = s.1 := by
      intro l
      induction l with
      | nil => intro s _; rfl
      | cons c l ih =>
        intro s hl
        rw [List.foldl_cons, ih _ (fun c' hc' => hl c' (List.mem_cons_of_mem _ hc'))]
        have hcm := hl c (List.mem_cons_self _ _)
        have hr := hread c hcm
        simp only at hr
        split_ifs
        · rfl
        · simp only [hr, ne_eq, not_true_eq_false, decide_False, Bool.or_false]
    rw [hfold contribY.p (false, 0.0) (fun c hc => hc)]
    simp only [Bool.false_eq_true, if_false, CLAMP]
    have h1 : ¬ v < 0 := by omega
    have h2 : ¬ v > 255 := by omega
    rw [if_neg h1, if_neg h2]


/-- The horizontal pass of a constant intermediate row yields the constant. -/
theorem horizSample_const (w ps : Nat) (v : Int) (hv : 0 ≤ v ∧ v ≤ 255)
    (cx : ContribList K) (hne : cx.p ≠ [])
    (hin : ∀ c ∈ cx.p, 0 ≤ c.m_pixel ∧ c.m_pixel < (w : Int))
    (channel : Nat) (hch : channel < ps) :
    horizSample w ps (List.replicate (w * ps) v) cx channel = some v := by
  have hread : ∀ c ∈ cx.p,
      (List.replicate (w * ps) v).getD (c.m_pixel.toNat * ps + channel) 0 = v := by
    intro c hc
    have := hin c hc
    exact getD_replicate_of_lt _ _ _ _ (index_lt_mul (by omega) hch)
  unfold horizSample
  cases hp : cx.p with
  | nil => exact absurd hp hne
  | cons c0 tl =>
    have hc0 : c0 ∈ cx.p := by rw [hp]; exact List.mem_cons_self _ _
    have h0 := hin c0 hc0
    have hnot : ¬ (c0.m_pixel < 0 ∨ c0.m_pixel ≥ (w : Int)) := by
      simp only [not_or, not_lt, ge_iff_le, not_le]
      exact h0
    simp only [if_neg hnot]
    rw [← hp, hread c0 hc0]
    have hfold : ∀ (l : List (Contrib K)) (s : Bool × K), (∀ c ∈ l, c ∈ cx.p) →
        ∃ acc : Bool × K, l.foldlM (fun (s : Bool × K) c =>
          if c.m_pixel < 0 ∨ c.m_pixel ≥ (w : Int) then none
          else
            let pel2 : Int := (List.replicate (w * ps) v).getD (c.m_pixel.toNat * ps + channel) 0
            some (s.1 || decide (pel2 ≠ v), s.2 + (pel2 : K) * c.m_weight)) s = some acc
          ∧ acc.1 = s.1 := by
      intro l
      induction l with
      | nil => intro s _; exact ⟨s, rfl, rfl⟩
      | cons c l ih =>
        intro s hl
        have hcm := hl c (List.mem_cons_self _ _)
        have hr := hread c hcm
        have hc := hin c hcm
        have hnotc : ¬ (c.m_pixel < 0 ∨ c.m_pixel ≥ (w : Int)) := by
          simp only [not_or, not_lt, ge_iff_le, not_le]
          exact hc
        obtain ⟨acc, hacc, hacc1⟩ := ih (s.1 || decide (v ≠ v), s.2 + (v : K) * c.m_weight)
          (fun c' hc' => hl c' (List.mem_cons_of_mem _ hc'))
        refine ⟨acc, ?_, ?_⟩
        · rw [List.foldlM_cons]
          simp only [if_neg hnotc, hr]
          exact hacc
        · rw [hacc1]
          simp
    obtain ⟨acc, hacc, hacc1⟩ := hfold cx.p (false, 0.0) (fun c hc => hc)
    rw [hacc]
    simp only [hacc1, Bool.false_eq_true, if_false]
    have h1 : ¬ v < 0 := by omega
    have h2 : ¬ v > 255 := by omega
    rw [if_neg h1, if_neg h2]


/-- A row of the output of a constant image is constant. -/
theorem scaleRow_const (w h ps : Nat) (v : Int) (hv : 0 ≤ v ∧ v ≤ 255) (yscale fwidth : K)
    (fs : KisScaleFilterStrategy K) (contribX : List (ContribList K)) (y : Nat)
    (hYne : (calcContrib yscale fwidth h fs y).p ≠ [])
    (hY : ∀ c ∈ (calcContrib yscale fwidth h fs y).p, 0 ≤ c.m_pixel ∧ c.m_pixel < (h : Int))
    (hX : ∀ cx ∈ contribX, cx.p ≠ [] ∧ ∀ c ∈ cx.p, 0 ≤ c.m_pixel ∧ c.m_pixel < (w : Int)) :
    scaleRow ⟨w, h, ps, List.replicate (w * h * ps) v⟩ yscale fwidth fs contribX y
      = some (List.replicate (contribX.length * ps) v) := by
  unfold scaleRow
  dsimp only
  have hvert : allDefined ((List.range w).flatMap fun x =>
      (List.range ps).map fun channel =>
        vertSample ⟨w, h, ps, List.replicate (w * h * ps) v⟩
          (calcContrib yscale fwidth h fs y) x channel)
      = some (List.replicate (w * ps) v) := by
    rw [allDefined_const v]
    · rw [length_flatMap_range_map, List.length_range]
    · intro o ho
      obtain ⟨x, hx, hxo⟩ := List.mem_flatMap.mp ho
      obtain ⟨channel, hch, rfl⟩ := List.mem_map.mp hxo
      exact vertSample_const w h ps v hv _ hYne hY x channel (List.mem_range.mp hx)
        (List.mem_range.mp hch)
  rw [hvert]
  dsimp only
  rw [allDefined_const v]
  · rw [length_flatMap_range_map]
  · intro o ho
    obtain ⟨cx, hcx, hxo⟩ := List.mem_flatMap.mp ho
    obtain ⟨channel, hch, rfl⟩ := List.mem_map.mp hxo
    exact horizSample_const w ps v hv cx (hX cx hcx).1 (hX cx hcx).2 channel
      (List.mem_range.mp hch)

/-- The Box lists of a 4-sample axis doubled to 8 samples stay inside the
source extent. -/
theorem box_double_indices (x : Nat) (hx : x < 8) :
    ∀ c ∈ (calcContrib (2.0 : ℚ) (supportOf enumFilterType.BOX_FILTER) ((4 : Nat) : Int)
        (newStrategy (fun _ => (0 : ℚ)) enumFilterType.BOX_FILTER) x).p,
      0 ≤ c.m_pixel ∧ c.m_pixel < ((4 : Nat) : Int) := by
  intro c hc
  obtain ⟨srcpos, h1, h2, hm⟩ := mem_calcContrib hc
  have hw : windowHalfWidth (2.0 : ℚ) (supportOf enumFilterType.BOX_FILTER) = 1 / 2 := by
    norm_num [windowHalfWidth, supportOf]
  rw [hw] at h1 h2
  have h1' := Int.ceil_le.mp h1
  have h2' := Int.le_floor.mp h2
  have hx' : (x : ℚ) ≤ 7 := by
    have : x ≤ 7 := by omega
    exact_mod_cast this
  have hx0 : (0 : ℚ) ≤ (x : ℚ) := Nat.cast_nonneg _
  simp only [Int.cast_natCast] at h1' h2'
  have e2 : (2.0 : ℚ) = 2 := by norm_num
  rw [e2] at h1' h2'
  have l1 : ((-1 : Int) : ℚ) < (srcpos : ℚ) := by
    push_cast
    linarith
  have l2 : (srcpos : ℚ) ≤ ((4 : Int) : ℚ) := by
    push_cast
    linarith
  have l1' : -1 < srcpos := by exact_mod_cast l1
  have l2' : srcpos ≤ 4 := by exact_mod_cast l2
  rw [hm]
  unfold reflectIndex
  push_cast
  split_ifs <;> omega

end EngineFacts

/-! ## Facts about contribution lists -/

section ContribFacts
variable {K : Type} [LinearOrderedField K] [FloorRing K]

/-- The window positions are visited in strictly increasing order. -/
theorem srcposRange_pairwise (a b : Int) : (srcposRange a b).Pairwise (· < ·) := by
  unfold srcposRange
  rw [List.pairwise_map]
  refine List.Pairwise.imp ?_ (List.pairwise_lt_range _)
  intro x y hxy
  omega

/-- The number of window positions. -/
theorem length_srcposRange (a b : Int) : (srcposRange a b).length = (b + 1 - a).toNat := by
  simp [srcposRange]

/-- The expanding branch of `calcContrib`, entry by entry. -/
theorem calcContrib_p_expanding (scale fwidth : K) (srcwidth : Int)
    (fs : KisScaleFilterStrategy K) (i : Int) (hs : ¬ scale < 1) :
    (calcContrib scale fwidth srcwidth fs i).p =
      (srcposRange ⌈(i : K) / scale - fwidth⌉ ⌊(i : K) / scale + fwidth⌋).map
        fun (srcpos : Int) =>
          ({ m_pixel := reflectIndex srcwidth srcpos,
             m_weight := fs.valueAt ((i : K) / scale - (srcpos : K)) } : Contrib K) := by
  have hs' : ¬ scale < 1.0 := by
    norm_num
    exact not_lt.mp hs
  unfold calcContrib
  rw [if_neg hs']
  rfl

/-- The shrinking branch of `calcContrib`, entry by entry. -/
theorem calcContrib_p_shrinking (scale fwidth : K) (srcwidth : Int)
    (fs : KisScaleFilterStrategy K) (i : Int) (hs : scale < 1) :
    (calcContrib scale fwidth srcwidth fs i).p =
      (srcposRange ⌈(i : K) / scale - fwidth / scale⌉ ⌊(i : K) / scale + fwidth / scale⌋).map
        fun (srcpos : Int) =>
          ({ m_pixel := reflectIndex srcwidth srcpos,
             m_weight := fs.valueAt (((i : K) / scale - (srcpos : K)) / (1 / scale))
               / (1 / scale) } : Contrib K) := by
  have hs' : scale < 1.0 := by
    norm_num
    exact hs
  unfold calcContrib
  rw [if_pos hs']
  have e : (1.0 : K) = 1 := by norm_num
  simp only [e]
  rfl


/-- C11: for a scale of at least 1, `calcContrib` produces exactly one entry
for every integer `srcpos` with `⌈center - s⌉ ≤ srcpos ≤ ⌊center + s⌋`
(`center = i / scale`, `s` the support passed as `fwidth`), in increasing
order of `srcpos`, and the entry for `srcpos` has weight
`valueAt(center - srcpos)`. -/
theorem expanding_contributions (scale fwidth : K) (srcwidth : Int)
    (fs : KisScaleFilterStrategy K) (i : Int) (hs : 1 ≤ scale) :
    (∀ srcpos : Int,
      srcpos ∈ srcposRange ⌈(i : K) / scale - fwidth⌉ ⌊(i : K) / scale + fwidth⌋ ↔
        ⌈(i : K) / scale - fwidth⌉ ≤ srcpos ∧ srcpos ≤ ⌊(i : K) / scale + fwidth⌋) ∧
    (srcposRange ⌈(i : K) / scale - fwidth⌉ ⌊(i : K) / scale + fwidth⌋).Pairwise (· < ·) ∧
    (calcContrib scale fwidth srcwidth fs i).p =
      (srcposRange ⌈(i : K) / scale - fwidth⌉ ⌊(i : K) / scale + fwidth⌋).map
        fun (srcpos : Int) =>
          ({ m_pixel := reflectIndex srcwidth srcpos,
             m_weight := fs.valueAt ((i : K) / scale - (srcpos : K)) } : Contrib K) :=
  ⟨fun _ => mem_srcposRange, srcposRange_pairwise _ _,
    calcContrib_p_expanding scale fwidth srcwidth fs i (not_lt.mpr hs)⟩

/-- C11 (witness): the list of target index 3 at scale 2 with the Triangle
kernel on a source of 4 samples: window positions 1 and 2, each of weight
`1/2`. -/
theorem expanding_contributions_witness :
    (1 : ℚ) ≤ 2 ∧
    (calcContrib (2 : ℚ) 1 4 (newStrategy (fun _ => 0) enumFilterType.TRIANGLE_FILTER) 3).p =
      [⟨1, 1 / 2⟩, ⟨2, 1 / 2⟩] := by
  refine ⟨by norm_num, ?_⟩
  rw [(expanding_contributions (2 : ℚ) 1 4 _ 3 (by norm_num)).2.2]
  have hc : ⌈((3 : Int) : ℚ) / 2 - 1⌉ = 1 := by
    rw [Int.ceil_eq_iff]; norm_num
  have hf : ⌊((3 : Int) : ℚ) / 2 + 1⌋ = 2 := by
    rw [Int.floor_eq_iff]; norm_num
  have hr : srcposRange 1 2 = [1, 2] := by decide
  rw [hc, hf, hr]
  norm_num [reflectIndex, newStrategy, valueAtOf, KisTriangleScaleFilterStrategy.valueAt]

/-- C12: for a scale in `(0, 1)`, with `width = s / scale`, `invScale = 1 /
scale` and `center = i / scale`, `calcContrib` produces exactly one entry for
every integer `srcpos` with `⌈center - width⌉ ≤ srcpos ≤ ⌊center + width⌋`, in
increasing order of `srcpos`, and the entry for `srcpos` has weight
`valueAt((center - srcpos) / invScale) / invScale`. -/
theorem shrinking_contributions (scale fwidth : K) (srcwidth : Int)
    (fs : KisScaleFilterStrategy K) (i : Int) (_h0 : 0 < scale) (hs : scale < 1) :
    (∀ srcpos : Int,
      srcpos ∈ srcposRange ⌈(i : K) / scale - fwidth / scale⌉
          ⌊(i : K) / scale + fwidth / scale⌋ ↔
        ⌈(i : K) / scale - fwidth / scale⌉ ≤ srcpos ∧
          srcpos ≤ ⌊(i : K) / scale + fwidth / scale⌋) ∧
    (srcposRange ⌈(i : K) / scale - fwidth / scale⌉
      ⌊(i : K) / scale + fwidth / scale⌋).Pairwise (· < ·) ∧
    (calcContrib scale fwidth srcwidth fs i).p =
      (srcposRange ⌈(i : K) / scale - fwidth / scale⌉ ⌊(i : K) / scale + fwidth / scale⌋).map
        fun (srcpos : Int) =>
          ({ m_pixel := reflectIndex srcwidth srcpos,
             m_weight := fs.valueAt (((i : K) / scale - (srcpos : K)) / (1 / scale))
               / (1 / scale) } : Contrib K) :=
  ⟨fun _ => mem_srcposRange, srcposRange_pairwise _ _,
    calcContrib_p_shrinking scale fwidth srcwidth fs i hs⟩

/-- C12 (witness): the list of target index 1 at scale 1/2 with the Box
kernel on a source of 4 samples: window positions 1, 2, 3 with weights
`1/2`, `1/2`, `0`. -/
theorem shrinking_contributions_witness :
    (0 : ℚ) < 1 / 2 ∧ (1 / 2 : ℚ) < 1 ∧
    (calcContrib (1 / 2 : ℚ) (1 / 2) 4 (newStrategy (fun _ => 0) enumFilterType.BOX_FILTER)
        1).p = [⟨1, 1 / 2⟩, ⟨2, 1 / 2⟩, ⟨3, 0⟩] := by
  refine ⟨by norm_num, by norm_num, ?_⟩
  rw [(shrinking_contributions (1 / 2 : ℚ) (1 / 2) 4 _ 1 (by norm_num) (by norm_num)).2.2]
  have hc : ⌈((1 : Int) : ℚ) / (1 / 2) - 1 / 2 / (1 / 2)⌉ = 1 := by
    rw [Int.ceil_eq_iff]; norm_num
  have hf : ⌊((1 : Int) : ℚ) / (1 / 2) + 1 / 2 / (1 / 2)⌋ = 3 := by
    rw [Int.floor_eq_iff]; norm_num
  have hr : srcposRange 1 3 = [1, 2, 3] := by decide
  rw [hc, hf, hr]
  norm_num [reflectIndex, newStrategy, valueAtOf, KisBoxScaleFilterStrategy.valueAt]

/-- C13: in both branches of `calcContrib` the source index stored for the
window position `srcpos` is `-srcpos` when `srcpos < 0`,
`(srcwidth - srcpos) + srcwidth - 1` when `srcpos ≥ srcwidth`, and `srcpos`
otherwise. -/
theorem edge_reflection_rule (scale fwidth : K) (srcwidth : Int)
    (fs : KisScaleFilterStrategy K) (i : Int) :
    (calcContrib scale fwidth srcwidth fs i).p.map (fun c => c.m_pixel) =
      (srcposRange ⌈(i : K) / scale - (if scale < 1 then fwidth / scale else fwidth)⌉
        ⌊(i : K) / scale + (if scale < 1 then fwidth / scale else fwidth)⌋).map
        fun (srcpos : Int) =>
          if srcpos < 0 then -srcpos
          else if srcpos ≥ srcwidth then (srcwidth - srcpos) + srcwidth - 1
          else srcpos := by
  by_cases hs : scale < 1
  · rw [calcContrib_p_shrinking scale fwidth srcwidth fs i hs, if_pos hs, List.map_map]
    rfl
  · rw [calcContrib_p_expanding scale fwidth srcwidth fs i hs, if_neg hs, List.map_map]
    rfl


/-- The list of `calcContrib` in terms of the half-width of its window. -/
theorem calcContrib_p_map_pixel (scale fwidth : K) (srcwidth : Int)
    (fs : KisScaleFilterStrategy K) (i : Int) :
    (calcContrib scale fwidth srcwidth fs i).p.map (fun c => c.m_pixel) =
      (srcposRange ⌈(i : K) / scale - windowHalfWidth scale fwidth⌉
        ⌊(i : K) / scale + windowHalfWidth scale fwidth⌋).map (reflectIndex srcwidth) := by
  have e : (1.0 : K) = 1 := by norm_num
  unfold windowHalfWidth
  rw [e]
  by_cases hs : scale < 1
  · rw [calcContrib_p_shrinking scale fwidth srcwidth fs i hs, if_pos hs, List.map_map]
    rfl
  · rw [calcContrib_p_expanding scale fwidth srcwidth fs i hs, if_neg hs, List.map_map]
    rfl

/-- The number of entries written by `calcContrib`. -/
theorem length_calcContrib (scale fwidth : K) (srcwidth : Int)
    (fs : KisScaleFilterStrategy K) (i : Int) :
    (calcContrib scale fwidth srcwidth fs i).p.length =
      (⌊(i : K) / scale + windowHalfWidth scale fwidth⌋ + 1
        - ⌈(i : K) / scale - windowHalfWidth scale fwidth⌉).toNat := by
  have h := congrArg List.length (calcContrib_p_map_pixel scale fwidth srcwidth fs i)
  simpa [length_srcposRange] using h

/-- The size of the array allocated by `calcContrib`. -/
theorem cap_calcContrib (scale fwidth : K) (srcwidth : Int)
    (fs : KisScaleFilterStrategy K) (i : Int) :
    (calcContrib scale fwidth srcwidth fs i).cap = toInt (windowHalfWidth scale fwidth * 2 + 1) := by
  unfold calcContrib windowHalfWidth
  split_ifs <;> rfl

/-- In exact arithmetic, for a positive scale and a support `s ≥ 0`, the list
of `calcContrib` has as many entries as there are integers in the window
`[⌈center - h⌉, ⌊center + h⌋]` (`h = s` for `scale ≥ 1`, `h = s / scale` for
`scale < 1`); this number is at most `2h + 1`, and it does not exceed the
size `(int)(2h + 1)` of the array allocated for the entries.  The bound rests
on `center`, `h` and their sum and difference being exact: see
`calcContribRounded` for the arithmetic of `double`. -/
theorem length_le_cap_exact (scale fwidth : K) (srcwidth : Int)
    (fs : KisScaleFilterStrategy K) (i : Int) (hs : 0 < scale) (hf : 0 ≤ fwidth) :
    (calcContrib scale fwidth srcwidth fs i).p.length =
      (Finset.Icc ⌈(i : K) / scale - windowHalfWidth scale fwidth⌉
        ⌊(i : K) / scale + windowHalfWidth scale fwidth⌋).card ∧
    ((calcContrib scale fwidth srcwidth fs i).p.length : K)
      ≤ 2 * windowHalfWidth scale fwidth + 1 ∧
    (calcContrib scale fwidth srcwidth fs i).cap = toInt (windowHalfWidth scale fwidth * 2 + 1) ∧
    ((calcContrib scale fwidth srcwidth fs i).p.length : Int)
      ≤ (calcContrib scale fwidth srcwidth fs i).cap := by
  have hh := windowHalfWidth_nonneg hs hf
  have hlen := length_calcContrib scale fwidth srcwidth fs i
  have hcap := cap_calcContrib scale fwidth srcwidth fs i
  set h := windowHalfWidth scale fwidth with hdef
  set c := (i : K) / scale with cdef
  have hA : (c - h) ≤ (⌈c - h⌉ : K) := Int.le_ceil _
  have hB : (⌊c + h⌋ : K) ≤ c + h := Int.floor_le _
  have hbound : ((⌊c + h⌋ + 1 - ⌈c - h⌉).toNat : K) ≤ 2 * h + 1 := by
    by_cases hneg : ⌊c + h⌋ + 1 - ⌈c - h⌉ ≤ 0
    · rw [Int.toNat_of_nonpos hneg]
      simp only [Nat.cast_zero]
      linarith
    · have hpos : 0 ≤ ⌊c + h⌋ + 1 - ⌈c - h⌉ := by omega
      have e : (((⌊c + h⌋ + 1 - ⌈c - h⌉).toNat : Int) : K) = ((⌊c + h⌋ + 1 - ⌈c - h⌉ : Int) : K) := by
        rw [Int.toNat_of_nonneg hpos]
      rw [Int.cast_natCast] at e
      rw [e]
      push_cast
      linarith
  refine ⟨?_, ?_, hcap, ?_⟩
  · rw [hlen, Int.card_Icc]
  · rw [hlen]
    exact hbound
  · rw [hcap, hlen]
    have h0 : (0 : K) ≤ h * 2 + 1 := by linarith
    unfold toInt
    rw [if_pos h0, Int.le_floor]
    rw [Int.cast_natCast]
    linarith

/-- C18: for each of the seven kernels, every positive scale, every target
index and every source extent, the list returned by `calcContrib` has at
least one entry. -/
theorem contribution_list_nonempty (sin : K → K) (filterType : enumFilterType) (scale : K)
    (srcwidth i : Int) (hs : 0 < scale) :
    1 ≤ (calcContrib scale (supportOf filterType) srcwidth (newStrategy sin filterType) i).p.length := by
  have h := calcContrib_ne_nil srcwidth (newStrategy sin filterType) i hs
    (supportOf_ge_half filterType)
  exact Nat.one_le_iff_ne_zero.mpr (fun e => h (List.length_eq_zero.mp e))

/-- C18 (witness): the Box list of target index 5 at scale 3 on a source of
2 samples is not empty. -/
theorem contribution_list_nonempty_witness :
    (0 : ℚ) < 3 ∧
    1 ≤ (calcContrib (3 : ℚ) (supportOf enumFilterType.BOX_FILTER) 2
      (newStrategy (fun _ => 0) enumFilterType.BOX_FILTER) 5).p.length :=
  ⟨by norm_num, contribution_list_nonempty _ _ _ _ _ (by norm_num)⟩


/-- The window positions `-2, …, 2`. -/
theorem srcposRange_neg_two_two : srcposRange (-2) 2 = [-2, -1, 0, 1, 2] := by decide

/-- The source indices of the Mitchell list of target index 0 at scale 1 on a
source of one sample. -/
theorem calcContrib_mitchell_one_pixel :
    (calcContrib (1 : ℚ) (supportOf enumFilterType.MITCHELL_FILTER) 1
      (newStrategy (fun _ => 0) enumFilterType.MITCHELL_FILTER) 0).p.map (fun c => c.m_pixel)
      = [2, 1, 0, 0, -1] := by
  rw [calcContrib_p_map_pixel]
  have hw : windowHalfWidth (1 : ℚ) (supportOf enumFilterType.MITCHELL_FILTER) = 2 := by
    norm_num [windowHalfWidth, supportOf]
  have hc : ⌈((0 : Int) : ℚ) / 1 - 2⌉ = -2 := by
    rw [Int.ceil_eq_iff]; norm_num
  have hf : ⌊((0 : Int) : ℚ) / 1 + 2⌋ = 2 := by
    rw [Int.floor_eq_iff]; norm_num
  rw [hw, hc, hf, srcposRange_neg_two_two]
  decide

/-- `allDefined` of a list with an undefined element. -/
theorem allDefined_none_of_mem {α : Type} : ∀ (l : List (Option α)), none ∈ l →
    allDefined l = none
  | [], h => absurd h (List.not_mem_nil _)
  | none :: _, _ => rfl
  | some a :: l, h => by
    have hl : none ∈ l := by
      rcases List.mem_cons.mp h with e | e
      · exact absurd e (by simp)
      · exact e
    simp [allDefined, allDefined_none_of_mem l hl]

/-- A column list whose first index lies outside the intermediate row makes
the row undefined. -/
theorem scaleRow_none_of_first_index (dev : KisPaintDevice) (yscale fwidth : K)
    (fs : KisScaleFilterStrategy K) (contribX : List (ContribList K)) (y : Nat)
    (cx : ContribList K) (hcx : cx ∈ contribX) (c0 : Contrib K) (tl : List (Contrib K))
    (hp : cx.p = c0 :: tl) (hout : c0.m_pixel < 0 ∨ c0.m_pixel ≥ (dev.width : Int))
    (hps : 0 < dev.pixelSize) :
    scaleRow dev yscale fwidth fs contribX y = none := by
  unfold scaleRow
  dsimp only
  split
  · rfl
  · rename_i tmp _
    apply allDefined_none_of_mem
    apply List.mem_flatMap.mpr
    refine ⟨cx, hcx, ?_⟩
    apply List.mem_map.mpr
    refine ⟨0, List.mem_range.mpr hps, ?_⟩
    unfold horizSample
    rw [hp]
    simp only [if_pos hout]

/-- C14 (failing input): on a source of one sample the Mitchell list of
target index 0 at scale 1 holds the source indices 2, 1, 0, 0, -1, two of
which lie outside `[0, 1)`; with this list as a column list the unchecked
read of the horizontal pass leaves the intermediate row, so `scale` of a
1x4 image by `(1, 2)` is undefined. -/
theorem source_index_escapes_extent :
    (0 : ℚ) < 1 ∧ (0 : Int) < qRound ((1 : ℚ) * ((1 : Nat) : ℚ)) ∧
    (calcContrib (1 : ℚ) (supportOf enumFilterType.MITCHELL_FILTER) 1
      (newStrategy (fun _ => 0) enumFilterType.MITCHELL_FILTER) 0).p.map (fun c => c.m_pixel)
      = [2, 1, 0, 0, -1] ∧
    scale (fun _ => (0 : ℚ)) ⟨1, 4, 1, [10, 20, 30, 40]⟩ 1 2 (fun _ => false)
      enumFilterType.MITCHELL_FILTER = none := by
  have hq : qRound ((1 : ℚ) * ((1 : Nat) : ℚ)) = 1 := by
    unfold qRound
    rw [Int.floor_eq_iff]; norm_num
  have hq2 : qRound ((2 : ℚ) * ((4 : Nat) : ℚ)) = 8 := by
    unfold qRound
    rw [Int.floor_eq_iff]; norm_num
  refine ⟨by norm_num, by rw [hq]; decide, calcContrib_mitchell_one_pixel, ?_⟩
  have hidx := calcContrib_mitchell_one_pixel
  cases hp : (calcContrib (1 : ℚ) (supportOf enumFilterType.MITCHELL_FILTER) 1
      (newStrategy (fun _ => 0) enumFilterType.MITCHELL_FILTER) 0).p with
  | nil => rw [hp] at hidx; exact absurd hidx (by simp)
  | cons c0 tl =>
    rw [hp] at hidx
    have h0 : c0.m_pixel = 2 := by
      simp only [List.map_cons, List.cons.injEq] at hidx
      exact hidx.1
    have hrow : ∀ y, scaleRow (K := ℚ) ⟨1, 4, 1, [10, 20, 30, 40]⟩ 2
        (supportOf enumFilterType.MITCHELL_FILTER)
        (newStrategy (fun _ => 0) enumFilterType.MITCHELL_FILTER)
        [calcContrib (1 : ℚ) (supportOf enumFilterType.MITCHELL_FILTER) 1
          (newStrategy (fun _ => 0) enumFilterType.MITCHELL_FILTER) 0] y = none := by
      intro y
      exact scaleRow_none_of_first_index _ _ _ _ _ _ _ (List.mem_singleton.mpr rfl) c0 tl hp
        (Or.inr (by rw [h0]; decide)) (by decide)
    have hne : ¬ ((1 : ℚ) = 1.0 ∧ (2 : ℚ) = 1.0) := by norm_num
    have r1 : List.range 1 = [0] := by decide
    have r8 : List.range 8 = 0 :: [1, 2, 3, 4, 5, 6, 7] := by decide
    unfold scale
    simp only [hne, if_false, Int.cast_natCast, hq, hq2, QABS, KisScaleFilterStrategy.support,
      newStrategy]
    norm_num [r1, r8, rowLoop]
    simp only [newStrategy] at hrow
    have := hrow 0
    norm_num at this
    rw [this]


/-- C15 (failing input): on a source of one sample the Triangle list of
target index 0 at scale 1/2 (window half-width 2) holds the source indices
2, 1, 0, 0, -1: the index 1 reflected from window position -1 is there, but
so is the negative index -1, reflected from window position 2. -/
theorem target_zero_negative_index :
    (1 : ℚ) ≤ supportOf enumFilterType.TRIANGLE_FILTER ∧ (0 : ℚ) < 1 / 2 ∧
    (calcContrib (1 / 2 : ℚ) (supportOf enumFilterType.TRIANGLE_FILTER) 1
      (newStrategy (fun _ => 0) enumFilterType.TRIANGLE_FILTER) 0).p.map (fun c => c.m_pixel)
      = [2, 1, 0, 0, -1] ∧
    reflectIndex 1 (-1) = 1 ∧ reflectIndex 1 2 = -1 := by
  refine ⟨by norm_num [supportOf], by norm_num, ?_, by decide, by decide⟩
  rw [calcContrib_p_map_pixel]
  have hw : windowHalfWidth (1 / 2 : ℚ) (supportOf enumFilterType.TRIANGLE_FILTER) = 2 := by
    norm_num [windowHalfWidth, supportOf]
  have hc : ⌈((0 : Int) : ℚ) / (1 / 2) - 2⌉ = -2 := by
    rw [Int.ceil_eq_iff]; norm_num
  have hf : ⌊((0 : Int) : ℚ) / (1 / 2) + 2⌋ = 2 := by
    rw [Int.floor_eq_iff]; norm_num
  rw [hw, hc, hf, srcposRange_neg_two_two]
  decide

/-- A row loop that meets a raised flag, all rows before being defined, is
left by `break`. -/
theorem rowLoop_cancelled (dev : KisPaintDevice) (yscale fwidth : K)
    (fs : KisScaleFilterStrategy K) (contribX : List (ContribList K))
    (cancelRequested : Nat → Bool) (y : Nat) (post : List Nat)
    (hc : cancelRequested y = true) : ∀ (pre : List Nat),
    (∀ y' ∈ pre, scaleRow dev yscale fwidth fs contribX y' ≠ none) →
    rowLoop dev yscale fwidth fs contribX cancelRequested (pre ++ y :: post) = some none
  | [], _ => by simp [rowLoop, hc]
  | y0 :: pre, h => by
    have ih := rowLoop_cancelled dev yscale fwidth fs contribX cancelRequested y post hc pre
      (fun y' hy' => h y' (List.mem_cons_of_mem _ hy'))
    have h0 := h y0 (List.mem_cons_self _ _)
    simp only [List.cons_append, rowLoop]
    split_ifs
    · rfl
    · cases hrow : scaleRow dev yscale fwidth fs contribX y0 with
      | none => exact absurd hrow h0
      | some row => simp [ih]

/-- The rows of the loop up to row `y`. -/
theorem range_split (n y : Nat) (hy : y < n) :
    ∃ pre post, List.range n = pre ++ y :: post ∧ ∀ y' ∈ pre, y' < y := by
  induction n with
  | zero => omega
  | succ n ih =>
    rcases Nat.lt_succ_iff_lt_or_eq.mp hy with h | h
    · obtain ⟨pre, post, e, hpre⟩ := ih h
      refine ⟨pre, post ++ [n], ?_, hpre⟩
      rw [List.range_succ, e]
      simp
    · subst h
      refine ⟨List.range y, [], ?_, ?_⟩
      · rw [List.range_succ]
      · intro y' hy'
        exact List.mem_range.mp hy'

/-- C19: if `m_cancelRequested` is found raised at the top of an iteration
`y` of the row loop, the rows before it being defined, the call ends without
`writeBytes` and `crop`: no output is produced and the image is the one the
caller passed. -/
theorem cancellation_leaves_image (sin : K → K) (dev : KisPaintDevice) (xscale yscale : K)
    (cancelRequested : Nat → Bool) (filterType : enumFilterType) (y : Nat)
    (hne : ¬ (xscale = 1 ∧ yscale = 1))
    (hy : y < (QABS (qRound (yscale * (dev.height : K)))).toNat)
    (hc : cancelRequested y = true)
    (hdef : ∀ y', y' < y →
      scaleRow dev yscale (supportOf filterType) (newStrategy sin filterType)
        ((List.range (QABS (qRound (xscale * (dev.width : K)))).toNat).map fun (x : Nat) =>
          calcContrib xscale (supportOf filterType) dev.width (newStrategy sin filterType)
            (x : Int)) y' ≠ none) :
    scale sin dev xscale yscale cancelRequested filterType = some Outcome.cancelled ∧
    imageAfter dev Outcome.cancelled = dev := by
  refine ⟨?_, rfl⟩
  obtain ⟨pre, post, e, hpre⟩ := range_split _ y hy
  have hloop := rowLoop_cancelled dev yscale (supportOf filterType) (newStrategy sin filterType)
    ((List.range (QABS (qRound (xscale * (dev.width : K)))).toNat).map fun (x : Nat) =>
      calcContrib xscale (supportOf filterType) dev.width (newStrategy sin filterType) (x : Int))
    cancelRequested y post hc pre (fun y' hy' => hdef y' (hpre y' hy'))
  have hne2 : ¬ (xscale = 1.0 ∧ yscale = 1.0) := by
    norm_num
    norm_num at hne
    exact hne
  unfold scale
  dsimp only
  rw [if_neg hne2]
  simp only [Int.cast_natCast, KisScaleFilterStrategy.support, newStrategy] at hloop ⊢
  rw [e, hloop]


/-- C19 (witness): the 4x4 image of constant value 200, scaled by `(2, 2)`
with the Box kernel, with the flag found raised at the top of row 1 (row 0
is complete): the call is cancelled and the image is untouched. -/
theorem cancellation_leaves_image_witness :
    scale (fun _ => (0 : ℚ)) ⟨4, 4, 1, List.replicate 16 200⟩ 2 2 (fun k => decide (k = 1))
      enumFilterType.BOX_FILTER = some Outcome.cancelled ∧
    imageAfter ⟨4, 4, 1, List.replicate 16 200⟩ Outcome.cancelled
      = ⟨4, 4, 1, List.replicate 16 200⟩ := by
  have q : qRound ((2 : ℚ) * ((4 : Nat) : ℚ)) = 8 := by
    unfold qRound
    rw [Int.floor_eq_iff]
    norm_num
  have e2 : (2.0 : ℚ) = 2 := by norm_num
  refine cancellation_leaves_image (fun _ => (0 : ℚ)) ⟨4, 4, 1, List.replicate 16 200⟩ 2 2
    (fun k => decide (k = 1)) enumFilterType.BOX_FILTER 1 (by norm_num) ?_ (by decide) ?_
  · show 1 < (QABS (qRound ((2 : ℚ) * ((4 : Nat) : ℚ)))).toNat
    rw [q]
    decide
  · intro y' hy' hnone
    have hy0 : y' < 8 := by omega
    have h := scaleRow_const (K := ℚ) 4 4 1 200 (by decide) 2
      (supportOf enumFilterType.BOX_FILTER)
      (newStrategy (fun _ => (0 : ℚ)) enumFilterType.BOX_FILTER)
      ((List.range (QABS (qRound ((2 : ℚ) * ((4 : Nat) : ℚ)))).toNat).map fun (x : Nat) =>
        calcContrib (2 : ℚ) (supportOf enumFilterType.BOX_FILTER) ((4 : Nat) : Int)
          (newStrategy (fun _ => (0 : ℚ)) enumFilterType.BOX_FILTER) (x : Int)) y'
      (calcContrib_ne_nil _ _ _ (by norm_num) (supportOf_ge_half _))
      (by
        have := box_double_indices y' hy0
        rw [e2] at this
        exact this)
      (by
        intro cx hcx
        obtain ⟨x, hxr, rfl⟩ := List.mem_map.mp hcx
        rw [q] at hxr
        have hx8 : x < 8 := by
          have := List.mem_range.mp hxr
          exact this
        refine ⟨calcContrib_ne_nil _ _ _ (by norm_num) (supportOf_ge_half _), ?_⟩
        have := box_double_indices x hx8
        rw [e2] at this
        exact this)
    exact Option.noConfusion (h.symm.trans hnone)

end ContribFacts

/-! ## Partition of unity -/

section UnityFacts
variable {K : Type} [LinearOrderedField K]

/-- The Box kernel outside `(-1/2, 1/2]`. -/
theorem box_valueAt_zero (t : K) (h : t ≤ -(1 / 2) ∨ 1 / 2 < t) :
    KisBoxScaleFilterStrategy.valueAt t = 0 := by
  unfold KisBoxScaleFilterStrategy.valueAt
  have hn : ¬ (t > -0.5 ∧ t ≤ 0.5) := by
    norm_num
    intro a
    rcases h with h | h
    · linarith
    · linarith
  rw [if_neg hn]
  norm_num

/-- The Box kernel inside `(-1/2, 1/2]`. -/
theorem box_valueAt_one (t : K) (h1 : -(1 / 2) < t) (h2 : t ≤ 1 / 2) :
    KisBoxScaleFilterStrategy.valueAt t = 1 := by
  unfold KisBoxScaleFilterStrategy.valueAt
  have hp : t > -0.5 ∧ t ≤ 0.5 := by
    norm_num
    exact ⟨h1, h2⟩
  rw [if_pos hp]
  norm_num

/-- The Box kernel is a partition of unity at integer spacing. -/
theorem box_unity (f : K) (h0 : 0 ≤ f) (h1 : f < 1) :
    KisBoxScaleFilterStrategy.valueAt (f + 2) + KisBoxScaleFilterStrategy.valueAt (f + 1)
      + KisBoxScaleFilterStrategy.valueAt f + KisBoxScaleFilterStrategy.valueAt (f - 1)
      + KisBoxScaleFilterStrategy.valueAt (f - 2)
      + KisBoxScaleFilterStrategy.valueAt (f - 3) = 1 := by
  rw [box_valueAt_zero (f + 2) (Or.inr (by linarith)),
    box_valueAt_zero (f + 1) (Or.inr (by linarith)),
    box_valueAt_zero (f - 2) (Or.inl (by linarith)),
    box_valueAt_zero (f - 3) (Or.inl (by linarith))]
  rcases le_or_lt f (1 / 2) with h | h
  · rw [box_valueAt_one f (by linarith) h, box_valueAt_zero (f - 1) (Or.inl (by linarith))]
    norm_num
  · rw [box_valueAt_zero f (Or.inr h), box_valueAt_one (f - 1) (by linarith) (by linarith)]
    norm_num

/-- The Triangle kernel is a partition of unity at integer spacing. -/
theorem triangle_unity (f : K) (h0 : 0 ≤ f) (h1 : f < 1) :
    KisTriangleScaleFilterStrategy.valueAt (f + 2) + KisTriangleScaleFilterStrategy.valueAt (f + 1)
      + KisTriangleScaleFilterStrategy.valueAt f + KisTriangleScaleFilterStrategy.valueAt (f - 1)
      + KisTriangleScaleFilterStrategy.valueAt (f - 2)
      + KisTriangleScaleFilterStrategy.valueAt (f - 3) = 1 := by
  have a2 : |f + 2| = f + 2 := abs_of_nonneg (by linarith)
  have a1 : |f + 1| = f + 1 := abs_of_nonneg (by linarith)
  have a0 : |f| = f := abs_of_nonneg (by linarith)
  have b1 : |f - 1| = 1 - f := by rw [abs_of_neg (by linarith)]; ring
  have b2 : |f - 2| = 2 - f := by rw [abs_of_neg (by linarith)]; ring
  have b3 : |f - 3| = 3 - f := by rw [abs_of_neg (by linarith)]; ring
  simp only [KisTriangle_valueAt_abs, a2, a1, a0, b1, b2, b3]
  split_ifs <;> first | (exfalso; linarith) | linarith

/-- The SimpleCubic kernel is a partition of unity at integer spacing. -/
theorem simple_unity (f : K) (h0 : 0 ≤ f) (h1 : f < 1) :
    KisSimpleScaleFilterStrategy.valueAt (f + 2) + KisSimpleScaleFilterStrategy.valueAt (f + 1)
      + KisSimpleScaleFilterStrategy.valueAt f + KisSimpleScaleFilterStrategy.valueAt (f - 1)
      + KisSimpleScaleFilterStrategy.valueAt (f - 2)
      + KisSimpleScaleFilterStrategy.valueAt (f - 3) = 1 := by
  have a2 : |f + 2| = f + 2 := abs_of_nonneg (by linarith)
  have a1 : |f + 1| = f + 1 := abs_of_nonneg (by linarith)
  have a0 : |f| = f := abs_of_nonneg (by linarith)
  have b1 : |f - 1| = 1 - f := by rw [abs_of_neg (by linarith)]; ring
  have b2 : |f - 2| = 2 - f := by rw [abs_of_neg (by linarith)]; ring
  have b3 : |f - 3| = 3 - f := by rw [abs_of_neg (by linarith)]; ring
  simp only [KisSimple_valueAt_abs, a2, a1, a0, b1, b2, b3]
  rcases eq_or_lt_of_le h0 with h | h
  · subst h
    norm_num
  · split_ifs <;> first | (exfalso; linarith) | ring


/-- The Bell kernel is a partition of unity at integer spacing. -/
theorem bell_unity (f : K) (h0 : 0 ≤ f) (h1 : f < 1) :
    KisBellScaleFilterStrategy.valueAt (f + 2) + KisBellScaleFilterStrategy.valueAt (f + 1)
      + KisBellScaleFilterStrategy.valueAt f + KisBellScaleFilterStrategy.valueAt (f - 1)
      + KisBellScaleFilterStrategy.valueAt (f - 2)
      + KisBellScaleFilterStrategy.valueAt (f - 3) = 1 := by
  have a2 : |f + 2| = f + 2 := abs_of_nonneg (by linarith)
  have a1 : |f + 1| = f + 1 := abs_of_nonneg (by linarith)
  have a0 : |f| = f := abs_of_nonneg (by linarith)
  have b1 : |f - 1| = 1 - f := by rw [abs_of_neg (by linarith)]; ring
  have b2 : |f - 2| = 2 - f := by rw [abs_of_neg (by linarith)]; ring
  have b3 : |f - 3| = 3 - f := by rw [abs_of_neg (by linarith)]; ring
  rcases lt_trichotomy f (1 / 2) with h | h | h
  · simp only [KisBell_valueAt_abs, a2, a1, a0, b1, b2, b3]
    simp (disch := linarith) only [if_pos, if_neg]
    split_ifs <;> first | (exfalso; linarith) | ring
  · subst h
    simp only [KisBell_valueAt_abs, a2, a1, a0, b1, b2, b3]
    norm_num
  · simp only [KisBell_valueAt_abs, a2, a1, a0, b1, b2, b3]
    simp (disch := linarith) only [if_pos, if_neg]
    split_ifs <;> first | (exfalso; linarith) | ring

/-- The B-Spline kernel is a partition of unity at integer spacing. -/
theorem bspline_unity (f : K) (h0 : 0 ≤ f) (h1 : f < 1) :
    KisBSplineScaleFilterStrategy.valueAt (f + 2) + KisBSplineScaleFilterStrategy.valueAt (f + 1)
      + KisBSplineScaleFilterStrategy.valueAt f + KisBSplineScaleFilterStrategy.valueAt (f - 1)
      + KisBSplineScaleFilterStrategy.valueAt (f - 2)
      + KisBSplineScaleFilterStrategy.valueAt (f - 3) = 1 := by
  have a2 : |f + 2| = f + 2 := abs_of_nonneg (by linarith)
  have a1 : |f + 1| = f + 1 := abs_of_nonneg (by linarith)
  have a0 : |f| = f := abs_of_nonneg (by linarith)
  have b1 : |f - 1| = 1 - f := by rw [abs_of_neg (by linarith)]; ring
  have b2 : |f - 2| = 2 - f := by rw [abs_of_neg (by linarith)]; ring
  have b3 : |f - 3| = 3 - f := by rw [abs_of_neg (by linarith)]; ring
  rcases eq_or_lt_of_le h0 with h | h
  · subst h
    norm_num [KisBSpline_valueAt_abs]
  · simp only [KisBSpline_valueAt_abs, a2, a1, a0, b1, b2, b3]
    simp (disch := linarith) only [if_pos, if_neg]
    split_ifs <;> first | (exfalso; linarith) | ring

/-- The Mitchell kernel is a partition of unity at integer spacing. -/
theorem mitchell_unity (f : K) (h0 : 0 ≤ f) (h1 : f < 1) :
    KisMitchellScaleFilterStrategy.valueAt (f + 2) + KisMitchellScaleFilterStrategy.valueAt (f + 1)
      + KisMitchellScaleFilterStrategy.valueAt f + KisMitchellScaleFilterStrategy.valueAt (f - 1)
      + KisMitchellScaleFilterStrategy.valueAt (f - 2)
      + KisMitchellScaleFilterStrategy.valueAt (f - 3) = 1 := by
  have a2 : |f + 2| = f + 2 := abs_of_nonneg (by linarith)
  have a1 : |f + 1| = f + 1 := abs_of_nonneg (by linarith)
  have a0 : |f| = f := abs_of_nonneg (by linarith)
  have b1 : |f - 1| = 1 - f := by rw [abs_of_neg (by linarith)]; ring
  have b2 : |f - 2| = 2 - f := by rw [abs_of_neg (by linarith)]; ring
  have b3 : |f - 3| = 3 - f := by rw [abs_of_neg (by linarith)]; ring
  rcases eq_or_lt_of_le h0 with h | h
  · subst h
    norm_num [KisMitchell_valueAt_abs]
  · simp only [KisMitchell_valueAt_abs, a2, a1, a0, b1, b2, b3]
    simp (disch := linarith) only [if_pos, if_neg]
    split_ifs <;> first | (exfalso; linarith) | ring

/-- Each of the six piecewise-polynomial kernels is a partition of unity at
integer spacing. -/
theorem kernel_unity (sin : K → K) (filterType : enumFilterType)
    (hft : filterType ≠ enumFilterType.LANCZOS3_FILTER) (f : K) (h0 : 0 ≤ f) (h1 : f < 1) :
    valueAtOf sin filterType (f + 2) + valueAtOf sin filterType (f + 1)
      + valueAtOf sin filterType f + valueAtOf sin filterType (f - 1)
      + valueAtOf sin filterType (f - 2) + valueAtOf sin filterType (f - 3) = 1 := by
  cases filterType
  · exact box_unity f h0 h1
  · exact triangle_unity f h0 h1
  · exact bell_unity f h0 h1
  · exact bspline_unity f h0 h1
  · exact simple_unity f h0 h1
  · exact absurd rfl hft
  · exact mitchell_unity f h0 h1

/-- Outside its support a kernel vanishes. -/
theorem valueAtOf_zero_of_lt (sin : K → K) (filterType : enumFilterType) (t : K)
    (ht : supportOf filterType < |t|) : valueAtOf sin filterType t = 0 := by
  cases filterType
  · have ht2 : (1 / 2 : K) < |t| := by
      have := ht
      norm_num [supportOf] at this
      linarith
    apply box_valueAt_zero
    rcases lt_abs.mp ht2 with c | c
    · exact Or.inr c
    · exact Or.inl (by linarith)
  · have ht2 : ¬ |t| < 1 := by
      have := ht
      norm_num [supportOf] at this
      linarith
    simp only [valueAtOf, KisTriangle_valueAt_abs, if_neg ht2]
  · have ht2 : ¬ |t| < 3 / 2 := by
      have := ht
      norm_num [supportOf] at this
      linarith
    have ht3 : ¬ |t| < 1 / 2 := fun a => ht2 (by linarith)
    simp only [valueAtOf, KisBell_valueAt_abs, if_neg ht2, if_neg ht3]
  · have ht2 : ¬ |t| < 2 := by
      have := ht
      norm_num [supportOf] at this
      linarith
    have ht3 : ¬ |t| < 1 := fun a => ht2 (by linarith)
    simp only [valueAtOf, KisBSpline_valueAt_abs, if_neg ht2, if_neg ht3]
  · have ht2 : ¬ |t| < 1 := by
      have := ht
      norm_num [supportOf] at this
      linarith
    simp only [valueAtOf, KisSimple_valueAt_abs, if_neg ht2]
  · have ht2 : ¬ |t| < 3 := by
      have := ht
      norm_num [supportOf] at this
      linarith
    simp only [valueAtOf, KisLanczos3_valueAt_abs, if_neg ht2]
  · have ht2 : ¬ |t| < 2 := by
      have := ht
      norm_num [supportOf] at this
      linarith
    have ht3 : ¬ |t| < 1 := fun a => ht2 (by linarith)
    simp only [valueAtOf, KisMitchell_valueAt_abs, if_neg ht2, if_neg ht3]

/-- The supports of the six piecewise-polynomial kernels are at most 2. -/
theorem supportOf_le_two (filterType : enumFilterType)
    (hft : filterType ≠ enumFilterType.LANCZOS3_FILTER) : supportOf filterType ≤ (2 : K) := by
  cases filterType <;> first | exact absurd rfl hft | norm_num [supportOf]

end UnityFacts

/-! ### The weights of a list -/

section UnitySum
variable {K : Type} [LinearOrderedField K]

/-- A sum over the window positions as a sum over an integer interval. -/
theorem sum_srcposRange (g : Int → K) (a b : Int) :
    ((srcposRange a b).map g).sum = ∑ k ∈ Finset.Icc a b, g k := by
  rw [← List.sum_toFinset g (srcposRange_pairwise a b).nodup]
  congr 1
  ext k
  simp [mem_srcposRange]

variable [FloorRing K]

/-- Six consecutive window positions. -/
theorem srcposRange_six (n : Int) :
    srcposRange (n - 2) (n + 3) = [n - 2, n - 1, n, n + 1, n + 2, n + 3] := by
  unfold srcposRange
  have h : (n + 3 + 1 - (n - 2)).toNat = 6 := by omega
  rw [h]
  have r6 : List.range 6 = [0, 1, 2, 3, 4, 5] := by decide
  rw [r6]
  simp only [List.map_cons, List.map_nil, Nat.cast_zero, Nat.cast_one, Nat.cast_ofNat, add_zero]
  simp only [List.cons.injEq, and_true]
  refine ⟨trivial, ?_, ?_, ?_, ?_, ?_⟩ <;> omega

/-- For a scale of at least 1 and each of the six piecewise-polynomial
kernels, the weights of a contribution list sum to 1. -/
theorem sum_weights_expanding (sin : K → K) (filterType : enumFilterType)
    (hft : filterType ≠ enumFilterType.LANCZOS3_FILTER) (scale : K) (srcwidth i : Int)
    (hs : 1 ≤ scale) :
    ((calcContrib scale (supportOf filterType) srcwidth (newStrategy sin filterType) i).p.map
      fun c => c.m_weight).sum = 1 := by
  rw [calcContrib_p_expanding _ _ _ _ _ (not_lt.mpr hs), List.map_map]
  set c : K := (i : K) / scale with hc
  set s : K := supportOf filterType with hsdef
  have hs2 : s ≤ 2 := supportOf_le_two filterType hft
  have hs0 : (1 / 2 : K) ≤ s := supportOf_ge_half filterType
  set g : Int → K := fun k => valueAtOf sin filterType (c - (k : K)) with hg
  have hmap : ((fun c => c.m_weight) ∘ fun (srcpos : Int) =>
      ({ m_pixel := reflectIndex srcwidth srcpos,
         m_weight := (newStrategy sin filterType).valueAt (c - (srcpos : K)) } : Contrib K)) = g := by
    funext k
    rfl
  rw [hmap, sum_srcposRange]
  have hfl0 : (⌊c⌋ : K) ≤ c := Int.floor_le c
  have hfl1 : c < (⌊c⌋ : K) + 1 := Int.lt_floor_add_one c
  have hsub : Finset.Icc ⌈c - s⌉ ⌊c + s⌋ ⊆ Finset.Icc (⌊c⌋ - 2) (⌊c⌋ + 3) := by
    intro k hk
    rw [Finset.mem_Icc] at hk ⊢
    have h1 : c - s ≤ (k : K) := Int.ceil_le.mp hk.1
    have h2 : (k : K) ≤ c + s := Int.le_floor.mp hk.2
    constructor
    · have : ((⌊c⌋ - 3 : Int) : K) < (k : K) := by
        push_cast
        linarith
      have := Int.cast_lt.mp this
      omega
    · have : (k : K) < ((⌊c⌋ + 3 : Int) : K) := by
        push_cast
        linarith
      have := Int.cast_lt.mp this
      omega
  have hzero : ∀ k ∈ Finset.Icc (⌊c⌋ - 2) (⌊c⌋ + 3), k ∉ Finset.Icc ⌈c - s⌉ ⌊c + s⌋ →
      g k = 0 := by
    intro k _ hk
    rw [Finset.mem_Icc, not_and_or, not_le, not_le] at hk
    apply valueAtOf_zero_of_lt
    rcases hk with hk | hk
    · have : (k : K) < c - s := Int.lt_ceil.mp hk
      exact lt_of_lt_of_le (by linarith) (le_abs_self _)
    · have : c + s < (k : K) := Int.floor_lt.mp hk
      exact lt_of_lt_of_le (by linarith) (neg_le_abs _)
  rw [Finset.sum_subset hsub hzero, ← sum_srcposRange, srcposRange_six]
  have hu := kernel_unity sin filterType hft (c - (⌊c⌋ : K)) (by linarith) (by linarith)
  have e0 : c - ((⌊c⌋ - 2 : Int) : K) = c - (⌊c⌋ : K) + 2 := by push_cast; ring
  have e1 : c - ((⌊c⌋ - 1 : Int) : K) = c - (⌊c⌋ : K) + 1 := by push_cast; ring
  have e3 : c - ((⌊c⌋ + 1 : Int) : K) = c - (⌊c⌋ : K) - 1 := by push_cast; ring
  have e4 : c - ((⌊c⌋ + 2 : Int) : K) = c - (⌊c⌋ : K) - 2 := by push_cast; ring
  have e5 : c - ((⌊c⌋ + 3 : Int) : K) = c - (⌊c⌋ : K) - 3 := by push_cast; ring
  simp only [hg, List.map_cons, List.map_nil, List.sum_cons, List.sum_nil, e0, e1, e3, e4, e5]
  linarith

/-- A window position with a non-zero weight lies in the window. -/
theorem mem_window_of_valueAtOf_ne_zero (sin : K → K) (filterType : enumFilterType) (c : K)
    (k : Int) (hk : valueAtOf sin filterType (c - (k : K)) ≠ 0) :
    ⌈c - supportOf filterType⌉ ≤ k ∧ k ≤ ⌊c + supportOf filterType⌋ := by
  by_contra hcon
  rw [not_and_or, not_le, not_le] at hcon
  apply hk
  apply valueAtOf_zero_of_lt
  rcases hcon with h | h
  · have : (k : K) < c - supportOf filterType := Int.lt_ceil.mp h
    exact lt_of_lt_of_le (by linarith) (le_abs_self _)
  · have : c + supportOf filterType < (k : K) := Int.floor_lt.mp h
    exact lt_of_lt_of_le (by linarith) (neg_le_abs _)

/-- C16: for every scale of at least 1, every target index, every source
extent and each of the kernels Box, Triangle, Bell, B-Spline, SimpleCubic and
Mitchell, the weights of the list returned by `calcContrib` sum to exactly 1,
and every integer at which the kernel centred at `i / scale` is non-zero lies
in the window of the list. -/
theorem contribution_weights_sum_to_one (sin : K → K) (filterType : enumFilterType)
    (scale : K) (srcwidth i : Int)
    (hft : filterType ≠ enumFilterType.LANCZOS3_FILTER) (hs : 1 ≤ scale) :
    ((calcContrib scale (supportOf filterType) srcwidth (newStrategy sin filterType) i).p.map
      fun c => c.m_weight).sum = 1 ∧
    ∀ k : Int, valueAtOf sin filterType ((i : K) / scale - (k : K)) ≠ 0 →
      ⌈(i : K) / scale - supportOf filterType⌉ ≤ k ∧
        k ≤ ⌊(i : K) / scale + supportOf filterType⌋ :=
  ⟨sum_weights_expanding sin filterType hft scale srcwidth i hs,
    fun k hk => mem_window_of_valueAtOf_ne_zero sin filterType _ k hk⟩

/-- C16 (witness): the weights of the Mitchell list of target index 3 at
scale 2 on a source of 4 samples sum to 1. -/
theorem contribution_weights_sum_to_one_witness :
    (1 : ℚ) ≤ 2 ∧
    ((calcContrib (2 : ℚ) (supportOf enumFilterType.MITCHELL_FILTER) 4
      (newStrategy (fun _ => 0) enumFilterType.MITCHELL_FILTER) 3).p.map
        fun c => c.m_weight).sum = 1 :=
  ⟨by norm_num,
    (contribution_weights_sum_to_one (fun _ => (0 : ℚ)) enumFilterType.MITCHELL_FILTER 2 4 3
      (by decide) (by norm_num)).1⟩

end UnitySum

/-! ## The two-pass filter -/

section TwoPassFacts
variable {K : Type} [LinearOrderedField K]

/-- The accumulator of the guarded loop of the vertical pass when no entry
is skipped. -/
theorem foldl_guarded (valid : Contrib K → Prop) [DecidablePred valid] (smp : Contrib K → Int)
    (pel : Int) : ∀ (l : List (Contrib K)) (s : Bool × K), (∀ e ∈ l, valid e) →
    l.foldl (fun (s : Bool × K) c =>
        if valid c then (s.1 || decide (smp c ≠ pel), s.2 + (smp c : K) * c.m_weight) else s) s
      = (s.1 || l.any (fun e => decide (smp e ≠ pel)),
          s.2 + (l.map fun e => (smp e : K) * e.m_weight).sum)
  | [], s, _ => by simp
  | c :: l, s, h => by
    rw [List.foldl_cons, if_pos (h c (List.mem_cons_self _ _)),
      foldl_guarded valid smp pel l _ (fun e he => h e (List.mem_cons_of_mem _ he))]
    simp only [List.any_cons, List.map_cons, List.sum_cons, Bool.or_assoc, add_assoc]

/-- The accumulator of the unchecked loop of the horizontal pass when it is
defined: every entry was readable. -/
theorem foldlM_checked (bad : Contrib K → Prop) [DecidablePred bad] (smp : Contrib K → Int)
    (pel : Int) : ∀ (l : List (Contrib K)) (s acc : Bool × K),
    l.foldlM (fun (s : Bool × K) c =>
        if bad c then none
        else some (s.1 || decide (smp c ≠ pel), s.2 + (smp c : K) * c.m_weight)) s = some acc →
    (∀ e ∈ l, ¬ bad e) ∧
      acc = (s.1 || l.any (fun e => decide (smp e ≠ pel)),
          s.2 + (l.map fun e => (smp e : K) * e.m_weight).sum)
  | [], s, acc, h => by
    simp only [List.foldlM_nil, pure, Option.some.injEq] at h
    subst h
    simp
  | c :: l, s, acc, h => by
    rw [List.foldlM_cons] at h
    by_cases hb : bad c
    · simp [hb] at h
    · simp only [if_neg hb, Option.bind_eq_bind, Option.some_bind] at h
      obtain ⟨h1, h2⟩ := foldlM_checked bad smp pel l _ acc h
      refine ⟨?_, ?_⟩
      · intro e he
        rcases List.mem_cons.mp he with rfl | he'
        · exact hb
        · exact h1 e he'
      · rw [h2]
        simp only [List.any_cons, List.map_cons, List.sum_cons, Bool.or_assoc, add_assoc]

variable [FloorRing K]

/-- The choice between the sample itself and the rounded sum, as the code
makes it, is the filter pass of the specification. -/
theorem filteredSample_cons (smp : Contrib K → Int) (c0 : Contrib K) (tl : List (Contrib K)) :
    (if (false || (c0 :: tl).any (fun e => decide (smp e ≠ smp c0))) = true then
        qRound ((0.0 : K) + ((c0 :: tl).map fun e => (smp e : K) * e.m_weight).sum)
      else smp c0)
      = filteredSample ((c0 :: tl).map fun e => (smp e, e.m_weight)) := by
  have hall : ∀ l : List (Contrib K), (l.map fun e => (smp e, e.m_weight)).all
      (fun e => decide (e.1 = smp c0)) = !(l.any (fun e => decide (smp e ≠ smp c0))) := by
    intro l
    induction l with
    | nil => rfl
    | cons a l ih =>
      simp only [List.map_cons, List.all_cons, List.any_cons, ih, Bool.not_or]
      congr 1
      by_cases h : smp a = smp c0 <;> simp [h]
  have hsum : (((c0 :: tl).map fun e => (smp e, e.m_weight)).map
      fun (e : Int × K) => (e.1 : K) * e.2).sum
      = ((c0 :: tl).map fun e => (smp e : K) * e.m_weight).sum := by
    rw [List.map_map]
    rfl
  have e0 : (0.0 : K) = 0 := by norm_num
  have hall' := hall (c0 :: tl)
  unfold filteredSample
  simp only [List.map_cons] at hall' hsum ⊢
  rw [hall', hsum, e0, zero_add, Bool.false_or]
  cases h : (decide (smp c0 ≠ smp c0) || tl.any (fun e => decide (smp e ≠ smp c0))) with
  | true =>
    simp only [List.any_cons, h, Bool.not_true, if_true]
    rfl
  | false =>
    simp only [List.any_cons, h, Bool.not_false, if_true]
    rfl


/-- A defined vertical sample whose row list has no entry outside the source
is the vertical pass of the specification. -/
theorem vertSample_eq_verticalPass {dev : KisPaintDevice} {contribY : ContribList K}
    {x channel : Nat} {v : Int} (h : vertSample dev contribY x channel = some v)
    (hin : ∀ e ∈ contribY.p, 0 ≤ e.m_pixel ∧ e.m_pixel < (dev.height : Int)) :
    v = verticalPass dev contribY x channel := by
  unfold vertSample at h
  unfold verticalPass
  cases hp : contribY.p with
  | nil => rw [hp] at h; exact absurd h (by simp)
  | cons c0 tl =>
    rw [hp] at h hin
    dsimp only at h
    split at h
    · exact absurd h (by simp)
    · simp only [Option.some.injEq] at h
      rw [foldl_guarded (fun c => ¬ (c.m_pixel < 0 ∨ c.m_pixel ≥ (dev.height : Int)))
        (fun c => (dev.readBytes c.m_pixel.toNat).getD (x * dev.pixelSize + channel) 0)
        ((dev.readBytes c0.m_pixel.toNat).getD (x * dev.pixelSize + channel) 0) (c0 :: tl)
        (false, 0.0)
        (by
          intro e he
          have := hin e he
          simp only [not_or, not_lt, ge_iff_le, not_le]
          exact this)] at h
      rw [← h]
      congr 1
      exact filteredSample_cons
        (fun c => (dev.readBytes c.m_pixel.toNat).getD (x * dev.pixelSize + channel) 0) c0 tl

/-- A defined horizontal sample: the column list is not empty, all its
indices are inside the intermediate row, and the sample is the clamped filter
pass of the specification over the intermediate row. -/
theorem horizSample_eq {width pixelSize : Nat} {tmp : List Int} {cx : ContribList K}
    {channel : Nat} {v : Int} (h : horizSample width pixelSize tmp cx channel = some v) :
    cx.p ≠ [] ∧ (∀ e ∈ cx.p, 0 ≤ e.m_pixel ∧ e.m_pixel < (width : Int)) ∧
    v = CLAMP (filteredSample (cx.p.map fun e =>
      (tmp.getD (e.m_pixel.toNat * pixelSize + channel) 0, e.m_weight))) 0 255 := by
  unfold horizSample at h
  cases hp : cx.p with
  | nil => rw [hp] at h; exact absurd h (by simp)
  | cons c0 tl =>
    rw [hp] at h
    dsimp only at h
    split at h
    · exact absurd h (by simp)
    · split at h
      · exact absurd h (by simp)
      · rename_i acc hacc
        simp only [Option.some.injEq] at h
        obtain ⟨hvalid, hval⟩ := foldlM_checked
          (fun c => c.m_pixel < 0 ∨ c.m_pixel ≥ (width : Int))
          (fun c => tmp.getD (c.m_pixel.toNat * pixelSize + channel) 0)
          (tmp.getD (c0.m_pixel.toNat * pixelSize + channel) 0) (c0 :: tl) (false, 0.0) acc hacc
        refine ⟨by simp, ?_, ?_⟩
        · intro e he
          have := hvalid e he
          simp only [not_or, not_lt, ge_iff_le, not_le] at this
          exact this
        · rw [← h, hval]
          unfold CLAMP
          rw [← filteredSample_cons
            (fun c => tmp.getD (c.m_pixel.toNat * pixelSize + channel) 0) c0 tl]

end TwoPassFacts

/-! ### Indexing the buffers -/

section IndexFacts

/-- Element `i` of the result of `allDefined` is element `i` of its input. -/
theorem allDefined_getElem? {α : Type} : ∀ {l : List (Option α)} {r : List α},
    allDefined l = some r → ∀ (i : Nat) (o : Option α), l[i]? = some o →
      ∃ v, o = some v ∧ r[i]? = some v
  | [], r, _, i, o, hi => by simp at hi
  | none :: l, r, h, _, _, _ => by simp [allDefined] at h
  | some a :: l, r, h, i, o, hi => by
    simp only [allDefined] at h
    cases hl : allDefined l with
    | none => simp [hl] at h
    | some r' =>
      simp only [hl, Option.some.injEq] at h
      subst h
      cases i with
      | zero =>
        simp only [List.getElem?_cons_zero, Option.some.injEq] at hi
        exact ⟨a, hi.symm, by simp⟩
      | succ i =>
        simp only [List.getElem?_cons_succ] at hi
        obtain ⟨v, hv1, hv2⟩ := allDefined_getElem? hl i o hi
        exact ⟨v, hv1, by simpa using hv2⟩

/-- Element `y * m + j` of a buffer made of rows of length `m`. -/
theorem flatten_getElem? {α : Type} (m : Nat) : ∀ (rows : List (List α)) (y : Nat)
    (row : List α) (j : Nat), (∀ r ∈ rows, r.length = m) → rows[y]? = some row → j < m →
    rows.flatten[y * m + j]? = row[j]?
  | [], y, row, j, _, hy, _ => by simp at hy
  | r :: rs, 0, row, j, hlen, hy, hj => by
    simp only [List.getElem?_cons_zero, Option.some.injEq] at hy
    subst hy
    have hr := hlen r (List.mem_cons_self _ _)
    rw [List.flatten_cons, Nat.zero_mul, Nat.zero_add,
      List.getElem?_append_left (by rw [hr]; exact hj)]
  | r :: rs, y + 1, row, j, hlen, hy, hj => by
    simp only [List.getElem?_cons_succ] at hy
    have hr := hlen r (List.mem_cons_self _ _)
    have ih := flatten_getElem? m rs y row j (fun r' hr' => hlen r' (List.mem_cons_of_mem _ hr'))
      hy hj
    have e : (y + 1) * m + j = r.length + (y * m + j) := by rw [hr]; ring
    rw [List.flatten_cons, e, List.getElem?_append_right (by omega)]
    simpa using ih

/-- Element `i * n + c` of the samples produced by a loop over `l` with an
inner loop over `n` channels. -/
theorem flatMap_getElem? {α β : Type} (n : Nat) (f : α → Nat → β) (l : List α) (i : Nat) (a : α)
    (c : Nat) (hi : l[i]? = some a) (hc : c < n) :
    (l.flatMap fun x => (List.range n).map (f x))[i * n + c]? = some (f a c) := by
  have hflat : ∀ l' : List α, (l'.flatMap fun x => (List.range n).map (f x))
      = (l'.map fun x => (List.range n).map (f x)).flatten := by
    intro l'
    induction l' with
    | nil => rfl
    | cons x l' ih => simp [List.flatMap_cons, ih]
  rw [hflat, flatten_getElem? n _ i ((List.range n).map (f a)) c]
  · simp [List.getElem?_range hc]
  · intro r hr
    obtain ⟨x, _, rfl⟩ := List.mem_map.mp hr
    simp
  · simp [hi]
  · exact hc

end IndexFacts

/-! ### Indices inside the source -/

section RangeFacts
variable {K : Type} [LinearOrderedField K] [FloorRing K]

/-- Row `j` of a completed row loop was produced by `scaleRow`. -/
theorem rowLoop_getElem? {dev : KisPaintDevice} {yscale fwidth : K}
    {fs : KisScaleFilterStrategy K} {contribX : List (ContribList K)}
    {cancelRequested : Nat → Bool} : ∀ {ys : List Nat} {rows : List (List Int)},
    rowLoop dev yscale fwidth fs contribX cancelRequested ys = some (some rows) →
    ∀ (j y : Nat), ys[j]? = some y →
      ∃ row, rows[j]? = some row ∧ scaleRow dev yscale fwidth fs contribX y = some row
  | [], rows, _, j, y, hj => by simp at hj
  | y0 :: ys, rows, h, j, y, hj => by
    simp only [rowLoop] at h
    split at h
    · exact absurd h (by simp)
    · split at h
      · exact absurd h (by simp)
      · rename_i row hrow
        split at h
        · exact absurd h (by simp)
        · exact absurd h (by simp)
        · rename_i rows' hrows
          simp only [Option.some.injEq] at h
          subst h
          cases j with
          | zero =>
            simp only [List.getElem?_cons_zero, Option.some.injEq] at hj
            subst hj
            exact ⟨row, by simp, hrow⟩
          | succ j =>
            simp only [List.getElem?_cons_succ] at hj
            obtain ⟨r, hr1, hr2⟩ := rowLoop_getElem? hrows j y hj
            exact ⟨r, by simpa using hr1, hr2⟩

/-- The first window position. -/
theorem srcposRange_cons {a b : Int} (h : a ≤ b) :
    srcposRange a b = a :: srcposRange (a + 1) b := by
  unfold srcposRange
  have e : (b + 1 - a).toNat = (b + 1 - (a + 1)).toNat + 1 := by omega
  rw [e, List.range_succ_eq_map, List.map_cons, List.map_map]
  simp only [Nat.cast_zero, add_zero, List.cons.injEq, true_and]
  apply List.map_congr_left
  intro j _
  simp only [Function.comp, Nat.succ_eq_add_one, Nat.cast_add, Nat.cast_one]
  ring

/-- One reflection brings a window position between `-ext` and `2 * ext`
into the source. -/
theorem reflectIndex_in_range {ext s : Int} (h1 : -ext < s) (h2 : s < 2 * ext) :
    0 ≤ reflectIndex ext s ∧ reflectIndex ext s < ext := by
  unfold reflectIndex
  split_ifs <;> omega

/-- When the source is wider than the half-width of the window, every index
of the list of a target index below `round(scale * ext)` lies in the source. -/
theorem calcContrib_in_range (scale fwidth : K) (ext : Nat) (fs : KisScaleFilterStrategy K)
    (i : Nat) (hs : 0 < scale) (hh : windowHalfWidth scale fwidth < (ext : K))
    (hi : (i : Int) < qRound (scale * (ext : K))) :
    ∀ e ∈ (calcContrib scale fwidth ext fs i).p, 0 ≤ e.m_pixel ∧ e.m_pixel < (ext : Int) := by
  intro e he
  obtain ⟨s, h1, h2, hm⟩ := mem_calcContrib he
  have h1' := Int.ceil_le.mp h1
  have h2' := Int.le_floor.mp h2
  simp only [Int.cast_natCast] at h1' h2'
  have hc0 : (0 : K) ≤ (i : K) / scale := div_nonneg (Nat.cast_nonneg _) hs.le
  have hc1 : (i : K) / scale < (ext : K) := by
    rw [div_lt_iff₀ hs]
    unfold qRound at hi
    have h3 : (i : Int) + 1 ≤ ⌊scale * (ext : K) + 0.5⌋ := by omega
    have h4 := Int.le_floor.mp h3
    push_cast at h4
    norm_num at h4
    linarith
  have l1 : ((-(ext : Int) : Int) : K) < (s : K) := by
    push_cast
    linarith
  have l2 : (s : K) < ((2 * (ext : Int) : Int) : K) := by
    push_cast
    linarith
  rw [hm]
  exact reflectIndex_in_range (Int.cast_lt.mp l1) (Int.cast_lt.mp l2)

/-- If the first index of the list of target index 0 lies in the source, the
scale is positive and the source is wider than the half-width of the window. -/
theorem halfWidth_lt_of_first_index (scale fwidth : K) (ext : Nat)
    (fs : KisScaleFilterStrategy K) (hs : scale ≠ 0) (hf : 0 < fwidth) (c0 : Contrib K)
    (tl : List (Contrib K)) (hp : (calcContrib scale fwidth ext fs 0).p = c0 :: tl)
    (h0 : 0 ≤ c0.m_pixel ∧ c0.m_pixel < (ext : Int)) :
    0 < scale ∧ windowHalfWidth scale fwidth < (ext : K) := by
  have hmap := calcContrib_p_map_pixel scale fwidth ext fs 0
  rw [hp] at hmap
  simp only [Int.cast_zero, zero_div, zero_sub, zero_add, List.map_cons] at hmap
  set h := windowHalfWidth scale fwidth with hdef
  have hAB : ⌈-h⌉ ≤ ⌊h⌋ := by
    by_contra hlt
    have : srcposRange ⌈-h⌉ ⌊h⌋ = [] := by
      unfold srcposRange
      have : (⌊h⌋ + 1 - ⌈-h⌉).toNat = 0 := by omega
      rw [this]
      rfl
    rw [this] at hmap
    simp at hmap
  have hh0 : 0 ≤ h := by
    have ha : -h ≤ (⌈-h⌉ : K) := Int.le_ceil _
    have hb : (⌊h⌋ : K) ≤ h := Int.floor_le _
    have hc : (⌈-h⌉ : K) ≤ (⌊h⌋ : K) := Int.cast_le.mpr hAB
    linarith
  have hspos : 0 < scale := by
    rcases lt_or_gt_of_ne hs with hneg | hpos
    · exfalso
      have hlt1 : scale < 1.0 := by
        norm_num
        linarith
      have : h < 0 := by
        rw [hdef]
        unfold windowHalfWidth
        rw [if_pos hlt1]
        exact div_neg_of_pos_of_neg hf hneg
      linarith
    · exact hpos
  refine ⟨hspos, ?_⟩
  rw [srcposRange_cons hAB, List.map_cons, List.cons.injEq] at hmap
  have hidx : c0.m_pixel = reflectIndex ext ⌈-h⌉ := hmap.1
  have hb0 : ⌈-h⌉ ≤ 0 := Int.ceil_le.mpr (by simp only [Int.cast_zero]; linarith)
  have hlow : -(ext : Int) < ⌈-h⌉ := by
    rw [hidx] at h0
    unfold reflectIndex at h0
    split_ifs at h0 <;> omega
  have := Int.lt_ceil.mp hlow
  push_cast at this
  linarith

end RangeFacts

/-! ### The stored sample -/

section TwoPassMain
variable {K : Type} [LinearOrderedField K]

/-- The kernels have positive support. -/
theorem supportOf_pos (filterType : enumFilterType) : (0 : K) < supportOf filterType :=
  lt_of_lt_of_le (by norm_num) (supportOf_ge_half filterType)

variable [FloorRing K]

/-- What a defined row of `scaleRow` consists of: a defined intermediate row
and the defined horizontal samples. -/
theorem scaleRow_eq_some {dev : KisPaintDevice} {yscale fwidth : K}
    {fs : KisScaleFilterStrategy K} {contribX : List (ContribList K)} {y : Nat}
    {row : List Int} (h : scaleRow dev yscale fwidth fs contribX y = some row) :
    ∃ tmp : List Int,
      allDefined ((List.range dev.width).flatMap fun x =>
        (List.range dev.pixelSize).map fun channel =>
          vertSample dev (calcContrib yscale fwidth dev.height fs y) x channel) = some tmp ∧
      allDefined (contribX.flatMap fun cx =>
        (List.range dev.pixelSize).map fun channel =>
          horizSample dev.width dev.pixelSize tmp cx channel) = some row := by
  unfold scaleRow at h
  dsimp only at h
  split at h
  · exact absurd h (by simp)
  · rename_i tmp htmp
    exact ⟨tmp, htmp, h⟩

/-- A sample of a defined intermediate row is a defined vertical sample. -/
theorem tmp_getD {dev : KisPaintDevice} {contribY : ContribList K} {tmp : List Int}
    (htmp : allDefined ((List.range dev.width).flatMap fun x =>
        (List.range dev.pixelSize).map fun channel =>
          vertSample dev contribY x channel) = some tmp)
    (x channel : Nat) (hx : x < dev.width) (hch : channel < dev.pixelSize) :
    vertSample dev contribY x channel = some (tmp.getD (x * dev.pixelSize + channel) 0) := by
  have hel := flatMap_getElem? dev.pixelSize (fun x ch => vertSample dev contribY x ch)
    (List.range dev.width) x x channel (List.getElem?_range hx) hch
  obtain ⟨v, hv1, hv2⟩ := allDefined_getElem? htmp _ _ hel
  dsimp only at hv1
  rw [hv1, List.getD_eq_getElem?_getD, hv2]
  rfl

/-- C20: in a completed call of `scale`, the sample stored for output
position `(x, y)` and channel `channel` is the clamped horizontal filter pass
over the entries of the column list `contribX[x]`, applied to the
intermediate row whose sample for source column `k` is the clamped vertical
filter pass over the entries of the row list of `y`, applied to the source
samples; in either pass the result is the rounded weighted sum, or the sample
itself when all contributing samples are identical.  All entries of both
lists lie inside the source. -/
theorem two_pass_separable_filter (sin : K → K) (dev : KisPaintDevice) (xscale yscale : K)
    (cancelRequested : Nat → Bool) (filterType : enumFilterType) (targetW targetH : Int)
    (newData : List Int)
    (h : scale sin dev xscale yscale cancelRequested filterType
      = some (Outcome.written targetW targetH newData))
    (x y channel : Nat) (hx : (x : Int) < targetW) (hy : (y : Int) < targetH)
    (hch : channel < dev.pixelSize) :
    newData.getD ((y * targetW.toNat + x) * dev.pixelSize + channel) 0
      = twoPass dev
          (calcContrib xscale (supportOf filterType) dev.width (newStrategy sin filterType) x)
          (calcContrib yscale (supportOf filterType) dev.height (newStrategy sin filterType) y)
          channel ∧
    (∀ e ∈ (calcContrib xscale (supportOf filterType) dev.width
        (newStrategy sin filterType) x).p, 0 ≤ e.m_pixel ∧ e.m_pixel < (dev.width : Int)) ∧
    (∀ e ∈ (calcContrib yscale (supportOf filterType) dev.height
        (newStrategy sin filterType) y).p, 0 ≤ e.m_pixel ∧ e.m_pixel < (dev.height : Int)) := by
  obtain ⟨_, hW, hH, _, rows, hrows, hnd⟩ := scale_written h
  obtain ⟨hlen, hmem, _⟩ := rowLoop_some hrows
  have hxn : x < targetW.toNat := by omega
  have hyn : y < targetH.toNat := by omega
  have h0n : 0 < targetH.toNat := by omega
  -- row `y` and row 0 of the loop
  obtain ⟨row, hrowy, hsr⟩ := rowLoop_getElem? hrows y y (List.getElem?_range hyn)
  obtain ⟨row0, _, hsr0⟩ := rowLoop_getElem? hrows 0 0 (List.getElem?_range h0n)
  obtain ⟨tmp, htmp, hhor⟩ := scaleRow_eq_some hsr
  obtain ⟨tmp0, htmp0, _⟩ := scaleRow_eq_some hsr0
  -- the horizontal sample of `(x, channel)`
  have hel := flatMap_getElem? dev.pixelSize
    (fun cx ch => horizSample dev.width dev.pixelSize tmp cx ch)
    ((List.range targetW.toNat).map fun (x : Nat) =>
      calcContrib xscale (supportOf filterType) dev.width (newStrategy sin filterType) (x : Int))
    x (calcContrib xscale (supportOf filterType) dev.width (newStrategy sin filterType) x)
    channel (by simp [List.getElem?_range hxn]) hch
  obtain ⟨v, hv1, hv2⟩ := allDefined_getElem? hhor _ _ hel
  dsimp only at hv1
  obtain ⟨hXne, hXin, hvval⟩ := horizSample_eq hv1
  -- the source is not empty
  have hw0 : 0 < dev.width := by
    cases hp : (calcContrib xscale (supportOf filterType) dev.width
        (newStrategy sin filterType) x).p with
    | nil => exact absurd hp hXne
    | cons e0 tl =>
      have := hXin e0 (by rw [hp]; exact List.mem_cons_self _ _)
      omega
  -- the first index of the row list of row 0 lies in the source
  have hv0 := tmp_getD htmp0 0 channel hw0 hch
  have hys0 : yscale ≠ 0 := by
    intro e
    rw [e] at hH
    have hz : ⌊(0.5 : K)⌋ = 0 := by
      rw [Int.floor_eq_iff]; norm_num
    simp only [zero_mul, qRound, zero_add, hz, QABS] at hH
    norm_num at hH
    omega
  have hfacts : 0 < yscale ∧ windowHalfWidth yscale (supportOf filterType) < (dev.height : K) := by
    unfold vertSample at hv0
    cases hp : (calcContrib yscale (supportOf filterType) (dev.height : Int)
        (newStrategy sin filterType) ((0 : Nat) : Int)).p with
    | nil => rw [hp] at hv0; exact absurd hv0 (by simp)
    | cons c0 tl =>
      rw [hp] at hv0
      dsimp only at hv0
      split at hv0
      · exact absurd hv0 (by simp)
      · rename_i hguard
        simp only [not_or, not_lt, ge_iff_le, not_le] at hguard
        exact halfWidth_lt_of_first_index yscale (supportOf filterType) dev.height
          (newStrategy sin filterType) hys0 (supportOf_pos filterType) c0 tl
          (by simpa using hp) hguard
  have hyq : (y : Int) < qRound (yscale * (dev.height : K)) := by
    have hq0 : 0 ≤ qRound (yscale * (dev.height : K)) :=
      qRound_nonneg (mul_nonneg hfacts.1.le (Nat.cast_nonneg _))
    rw [hH, QABS, if_pos hq0] at hy
    exact hy
  have hYin := calcContrib_in_range yscale (supportOf filterType) dev.height
    (newStrategy sin filterType) y hfacts.1 hfacts.2 hyq
  refine ⟨?_, hXin, hYin⟩
  -- the stored sample is the horizontal sample
  have hrowlen : ∀ r ∈ rows, r.length = targetW.toNat * dev.pixelSize := by
    intro r hr
    obtain ⟨y', _, hy'⟩ := hmem r hr
    rw [(scaleRow_some hy').1]
    simp
  have hidx := flatten_getElem? (targetW.toNat * dev.pixelSize) rows y row
    (x * dev.pixelSize + channel) hrowlen hrowy (index_lt_mul hxn hch)
  have eidx : (y * targetW.toNat + x) * dev.pixelSize + channel
      = y * (targetW.toNat * dev.pixelSize) + (x * dev.pixelSize + channel) := by ring
  rw [hnd, List.getD_eq_getElem?_getD, eidx, hidx, hv2, Option.getD_some, hvval]
  -- the intermediate row holds the vertical pass
  unfold twoPass
  congr 2
  apply List.map_congr_left
  intro e he
  have hein := hXin e he
  have hvs := tmp_getD htmp e.m_pixel.toNat channel (by omega) hch
  rw [vertSample_eq_verticalPass hvs hYin]

/-- C20 (witness): for the 2x1 image `[0, 255]` scaled by `(0.5, 1.0)` with
the Box kernel, the two-pass filter of the specification gives the stored
sample 128 at output position `(0, 0)`. -/
theorem two_pass_separable_filter_witness :
    scale (fun _ => (0 : ℚ)) ⟨2, 1, 1, [0, 255]⟩ 0.5 1.0 (fun _ => false)
      enumFilterType.BOX_FILTER = some (Outcome.written 1 1 [128]) ∧
    twoPass ⟨2, 1, 1, [0, 255]⟩
      (calcContrib (0.5 : ℚ) (supportOf enumFilterType.BOX_FILTER) ((2 : Nat) : Int)
        (newStrategy (fun _ => (0 : ℚ)) enumFilterType.BOX_FILTER) ((0 : Nat) : Int))
      (calcContrib (1.0 : ℚ) (supportOf enumFilterType.BOX_FILTER) ((1 : Nat) : Int)
        (newStrategy (fun _ => (0 : ℚ)) enumFilterType.BOX_FILTER) ((0 : Nat) : Int)) 0 = 128 :=
  ⟨scale_box_two_by_one _ 0 255 (by decide) (by decide) _ rfl rfl,
    ((two_pass_separable_filter (fun _ => (0 : ℚ)) ⟨2, 1, 1, [0, 255]⟩ 0.5 1.0
      (fun _ => false) enumFilterType.BOX_FILTER 1 1 [128]
      (scale_box_two_by_one (fun _ => (0 : ℚ)) 0 255 (by decide) (by decide)
        (fun _ => false) rfl rfl) 0 0 0 (by decide) (by decide) (by decide)).1).symm⟩

end TwoPassMain

/-! ## Single reflection and unit scale -/

section BounceFacts
variable {K : Type} [LinearOrderedField K]

/-- The unchecked loop of the horizontal pass is defined when every index is
inside the intermediate row. -/
theorem foldlM_defined (bad : Contrib K → Prop) [DecidablePred bad] (smp : Contrib K → Int)
    (pel : Int) : ∀ (l : List (Contrib K)) (s : Bool × K), (∀ e ∈ l, ¬ bad e) →
    ∃ acc, l.foldlM (fun (s : Bool × K) c =>
        if bad c then none
        else some (s.1 || decide (smp c ≠ pel), s.2 + (smp c : K) * c.m_weight)) s = some acc
  | [], s, _ => ⟨s, rfl⟩
  | c :: l, s, h => by
    rw [List.foldlM_cons, if_neg (h c (List.mem_cons_self _ _))]
    exact foldlM_defined bad smp pel l _ (fun e he => h e (List.mem_cons_of_mem _ he))

variable [FloorRing K]

/-- A horizontal sample is defined when the column list is not empty and all
its indices are inside the intermediate row. -/
theorem horizSample_isSome (width pixelSize : Nat) (tmp : List Int) (cx : ContribList K)
    (channel : Nat) (hne : cx.p ≠ [])
    (hin : ∀ e ∈ cx.p, 0 ≤ e.m_pixel ∧ e.m_pixel < (width : Int)) :
    (horizSample width pixelSize tmp cx channel).isSome = true := by
  unfold horizSample
  cases hp : cx.p with
  | nil => exact absurd hp hne
  | cons c0 tl =>
    rw [hp] at hin
    have h0 := hin c0 (List.mem_cons_self _ _)
    have hnot : ¬ (c0.m_pixel < 0 ∨ c0.m_pixel ≥ (width : Int)) := by
      simp only [not_or, not_lt, ge_iff_le, not_le]
      exact h0
    dsimp only
    rw [if_neg hnot]
    obtain ⟨acc, hacc⟩ := foldlM_defined
      (fun c => c.m_pixel < 0 ∨ c.m_pixel ≥ (width : Int))
      (fun c => tmp.getD (c.m_pixel.toNat * pixelSize + channel) 0)
      (tmp.getD (c0.m_pixel.toNat * pixelSize + channel) 0) (c0 :: tl) (false, 0.0)
      (by
        intro e he
        have := hin e he
        simp only [not_or, not_lt, ge_iff_le, not_le]
        exact this)
    rw [hacc]
    rfl

/-- C21: when the source extent exceeds the half-width `h` of the window
(`h = s` for `scale ≥ 1`, `h = s / scale` for `scale < 1`), the scale is
positive and the target index is below `round(scale * srcExtent)`, every
source index of the list returned by `calcContrib` lies in
`[0, srcExtent)`; consequently every read
`tmp[p[k].m_pixel * m_pixelSize + channel]` of the horizontal pass is inside
the intermediate row, and the horizontal sample of a non-empty list is
defined. -/
theorem single_bounce_sufficient (scale fwidth : K) (srcExtent : Nat)
    (fs : KisScaleFilterStrategy K) (i : Nat) (hs : 0 < scale)
    (hh : windowHalfWidth scale fwidth < (srcExtent : K))
    (hi : (i : Int) < qRound (scale * (srcExtent : K))) :
    (∀ e ∈ (calcContrib scale fwidth srcExtent fs i).p,
      0 ≤ e.m_pixel ∧ e.m_pixel < (srcExtent : Int)) ∧
    (∀ (pixelSize channel : Nat) (tmp : List Int), channel < pixelSize →
      tmp.length = srcExtent * pixelSize →
      (∀ e ∈ (calcContrib scale fwidth srcExtent fs i).p,
        e.m_pixel.toNat * pixelSize + channel < tmp.length) ∧
      ((calcContrib scale fwidth srcExtent fs i).p ≠ [] →
        (horizSample srcExtent pixelSize tmp (calcContrib scale fwidth srcExtent fs i)
          channel).isSome = true)) := by
  have hin := calcContrib_in_range scale fwidth srcExtent fs i hs hh hi
  refine ⟨hin, ?_⟩
  intro pixelSize channel tmp hch hlen
  refine ⟨?_, ?_⟩
  · intro e he
    have := hin e he
    rw [hlen]
    exact index_lt_mul (by omega) hch
  · intro hne
    exact horizSample_isSome _ _ _ _ _ hne hin

/-- C21 (witness): the Mitchell list of target index 7 when a source of 4
samples is doubled (half-width 2 < 4, 7 < round(2 * 4)): all indices lie in
`[0, 4)`. -/
theorem single_bounce_sufficient_witness :
    (0 : ℚ) < 2 ∧
    windowHalfWidth (2 : ℚ) (supportOf enumFilterType.MITCHELL_FILTER) < ((4 : Nat) : ℚ) ∧
    ((7 : Nat) : Int) < qRound ((2 : ℚ) * ((4 : Nat) : ℚ)) ∧
    ∀ e ∈ (calcContrib (2 : ℚ) (supportOf enumFilterType.MITCHELL_FILTER) ((4 : Nat) : Int)
        (newStrategy (fun _ => 0) enumFilterType.MITCHELL_FILTER) ((7 : Nat) : Int)).p,
      0 ≤ e.m_pixel ∧ e.m_pixel < ((4 : Nat) : Int) := by
  have hw : windowHalfWidth (2 : ℚ) (supportOf enumFilterType.MITCHELL_FILTER)
      < ((4 : Nat) : ℚ) := by
    norm_num [windowHalfWidth, supportOf]
  have hq : ((7 : Nat) : Int) < qRound ((2 : ℚ) * ((4 : Nat) : ℚ)) := by
    have q : qRound ((2 : ℚ) * ((4 : Nat) : ℚ)) = 8 := by
      unfold qRound
      rw [Int.floor_eq_iff]
      norm_num
    rw [q]
    decide
  exact ⟨by norm_num, hw, hq,
    (single_bounce_sufficient (2 : ℚ) (supportOf enumFilterType.MITCHELL_FILTER) 4
      (newStrategy (fun _ => 0) enumFilterType.MITCHELL_FILTER) 7 (by norm_num) hw hq).1⟩

end BounceFacts
section UnitScaleFacts
variable {K : Type} [LinearOrderedField K] [FloorRing K]

/-- A window of one position. -/
theorem srcposRange_one (n : Int) : srcposRange n n = [n] := by
  unfold srcposRange
  have h : (n + 1 - n).toNat = 1 := by omega
  rw [h]
  have r1 : List.range 1 = [0] := by decide
  rw [r1]
  simp

/-- A window of three positions. -/
theorem srcposRange_three (n : Int) : srcposRange (n - 1) (n + 1) = [n - 1, n, n + 1] := by
  unfold srcposRange
  have h : (n + 1 + 1 - (n - 1)).toNat = 3 := by omega
  rw [h]
  have r3 : List.range 3 = [0, 1, 2] := by decide
  rw [r3]
  simp only [List.map_cons, List.map_nil, Nat.cast_zero, Nat.cast_one, Nat.cast_ofNat, add_zero]
  simp only [List.cons.injEq, and_true]
  refine ⟨trivial, ?_, ?_⟩ <;> omega

/-- At scale 1 the Box list of row `y` is the single entry `(y, 1)`. -/
theorem calcContrib_unit_box (sin : K → K) (height y : Nat) (hy : y < height) :
    (calcContrib (1 : K) (supportOf enumFilterType.BOX_FILTER) height
      (newStrategy sin enumFilterType.BOX_FILTER) y).p = [⟨y, 1⟩] := by
  rw [calcContrib_p_expanding _ _ _ _ _ (by norm_num)]
  have hc : ⌈((y : Int) : K) / 1 - supportOf enumFilterType.BOX_FILTER⌉ = (y : Int) := by
    rw [Int.ceil_eq_iff]
    norm_num [supportOf]
  have hf : ⌊((y : Int) : K) / 1 + supportOf enumFilterType.BOX_FILTER⌋ = (y : Int) := by
    rw [Int.floor_eq_iff]
    norm_num [supportOf]
  have hr : reflectIndex (height : Int) (y : Int) = (y : Int) := by
    unfold reflectIndex
    split_ifs <;> omega
  rw [hc, hf, srcposRange_one]
  simp only [List.map_cons, List.map_nil, hr]
  norm_num [newStrategy, valueAtOf, KisBoxScaleFilterStrategy.valueAt]

/-- At scale 1 the Triangle list of row `y` has the weights 0, 1, 0, the
weight 1 at source index `y`. -/
theorem calcContrib_unit_triangle (sin : K → K) (height y : Nat) (hy : y < height) :
    (calcContrib (1 : K) (supportOf enumFilterType.TRIANGLE_FILTER) height
      (newStrategy sin enumFilterType.TRIANGLE_FILTER) y).p
      = [⟨reflectIndex height ((y : Int) - 1), 0⟩, ⟨y, 1⟩,
          ⟨reflectIndex height ((y : Int) + 1), 0⟩] := by
  rw [calcContrib_p_expanding _ _ _ _ _ (by norm_num)]
  have hc : ⌈((y : Int) : K) / 1 - supportOf enumFilterType.TRIANGLE_FILTER⌉ = (y : Int) - 1 := by
    rw [Int.ceil_eq_iff]
    norm_num [supportOf]
  have hf : ⌊((y : Int) : K) / 1 + supportOf enumFilterType.TRIANGLE_FILTER⌋ = (y : Int) + 1 := by
    rw [Int.floor_eq_iff]
    norm_num [supportOf]
  have hr : reflectIndex (height : Int) (y : Int) = (y : Int) := by
    unfold reflectIndex
    split_ifs <;> omega
  rw [hc, hf, srcposRange_three]
  simp only [List.map_cons, List.map_nil, hr]
  norm_num [newStrategy, valueAtOf, KisTriangleScaleFilterStrategy.valueAt]

/-- At scale 1 the SimpleCubic list of row `y` has the weights 0, 1, 0, the
weight 1 at source index `y`. -/
theorem calcContrib_unit_simple (sin : K → K) (height y : Nat) (hy : y < height) :
    (calcContrib (1 : K) (supportOf enumFilterType.FILTER) height
      (newStrategy sin enumFilterType.FILTER) y).p
      = [⟨reflectIndex height ((y : Int) - 1), 0⟩, ⟨y, 1⟩,
          ⟨reflectIndex height ((y : Int) + 1), 0⟩] := by
  rw [calcContrib_p_expanding _ _ _ _ _ (by norm_num)]
  have hc : ⌈((y : Int) : K) / 1 - supportOf enumFilterType.FILTER⌉ = (y : Int) - 1 := by
    rw [Int.ceil_eq_iff]
    norm_num [supportOf]
  have hf : ⌊((y : Int) : K) / 1 + supportOf enumFilterType.FILTER⌋ = (y : Int) + 1 := by
    rw [Int.floor_eq_iff]
    norm_num [supportOf]
  have hr : reflectIndex (height : Int) (y : Int) = (y : Int) := by
    unfold reflectIndex
    split_ifs <;> omega
  rw [hc, hf, srcposRange_three]
  simp only [List.map_cons, List.map_nil, hr]
  norm_num [newStrategy, valueAtOf, KisSimpleScaleFilterStrategy.valueAt]

end UnitScaleFacts
section UnitScaleMain
variable {K : Type} [LinearOrderedField K]

/-- A weighted sum whose weights all vanish. -/
theorem sum_zero_weights (l : List (Int × K)) (h : ∀ e ∈ l, e.2 = 0) :
    (l.map fun e => (e.1 : K) * e.2).sum = 0 := by
  induction l with
  | nil => rfl
  | cons a l ih =>
    rw [List.map_cons, List.sum_cons, ih (fun e he => h e (List.mem_cons_of_mem _ he)),
      h a (List.mem_cons_self _ _)]
    simp

variable [FloorRing K]

/-- At scale 1 the list of row `y` of the Box, Triangle and SimpleCubic
kernels has weight 1 at source index `y` and weight 0 at every other entry. -/
theorem calcContrib_unit_scale (sin : K → K) (filterType : enumFilterType)
    (hft : filterType = enumFilterType.BOX_FILTER ∨ filterType = enumFilterType.TRIANGLE_FILTER
      ∨ filterType = enumFilterType.FILTER) (height y : Nat) (hy : y < height) :
    ∃ l1 l2 : List (Contrib K),
      (calcContrib (1 : K) (supportOf filterType) height (newStrategy sin filterType) y).p
        = l1 ++ (⟨y, 1⟩ : Contrib K) :: l2 ∧
      (∀ e ∈ l1, e.m_weight = 0) ∧ (∀ e ∈ l2, e.m_weight = 0) := by
  rcases hft with rfl | rfl | rfl
  · exact ⟨[], [], by rw [calcContrib_unit_box sin height y hy]; rfl, by simp, by simp⟩
  · exact ⟨[⟨reflectIndex height ((y : Int) - 1), 0⟩],
      [⟨reflectIndex height ((y : Int) + 1), 0⟩],
      by rw [calcContrib_unit_triangle sin height y hy]; rfl, by simp, by simp⟩
  · exact ⟨[⟨reflectIndex height ((y : Int) - 1), 0⟩],
      [⟨reflectIndex height ((y : Int) + 1), 0⟩],
      by rw [calcContrib_unit_simple sin height y hy]; rfl, by simp, by simp⟩

/-- Rounding an integer. -/
theorem qRound_intCast (n : Int) : qRound (n : K) = n := by
  unfold qRound
  rw [Int.floor_eq_iff]
  norm_num

/-- A filter pass with weight 1 at one sample and weight 0 at every other
sample yields that sample. -/
theorem filteredSample_unit (l1 l2 : List (Int × K)) (s : Int)
    (h1 : ∀ e ∈ l1, e.2 = 0) (h2 : ∀ e ∈ l2, e.2 = 0) :
    filteredSample (l1 ++ (s, (1 : K)) :: l2) = s := by
  have hsum : ((l1 ++ (s, (1 : K)) :: l2).map fun e => (e.1 : K) * e.2).sum = (s : K) := by
    rw [List.map_append, List.sum_append, List.map_cons, List.sum_cons, sum_zero_weights l1 h1,
      sum_zero_weights l2 h2]
    simp
  unfold filteredSample
  cases hl : l1 ++ (s, (1 : K)) :: l2 with
  | nil => simp at hl
  | cons e0 tl =>
    rw [hl] at hsum
    dsimp only
    split_ifs with hall
    · have hmem : (s, (1 : K)) ∈ e0 :: tl := by
        rw [← hl]
        simp
      have := List.all_eq_true.mp hall _ hmem
      have e : s = e0.1 := by simpa using this
      exact e.symm
    · rw [hsum]
      exact qRound_intCast s

/-- A sample read from a buffer of 8-bit samples is an 8-bit sample. -/
theorem getD_eight_bit (l : List Int) (h : ∀ s ∈ l, 0 ≤ s ∧ s ≤ 255) (i : Nat) :
    0 ≤ l.getD i 0 ∧ l.getD i 0 ≤ 255 := by
  rw [List.getD_eq_getElem?_getD]
  cases hi : l[i]? with
  | none => simp
  | some v =>
    have := h v (List.getElem?_mem hi)
    simpa using this

/-- A row read from an image of 8-bit samples holds 8-bit samples. -/
theorem readBytes_eight_bit (dev : KisPaintDevice) (h : ∀ s ∈ dev.data, 0 ≤ s ∧ s ≤ 255)
    (y : Nat) : ∀ s ∈ dev.readBytes y, 0 ≤ s ∧ s ≤ 255 := by
  intro s hs
  unfold KisPaintDevice.readBytes at hs
  exact h s (List.mem_of_mem_drop (List.mem_of_mem_take hs))

/-- A vertical sample is defined when the row list starts with an index
inside the source. -/
theorem vertSample_defined (dev : KisPaintDevice) (contribY : ContribList K) (x channel : Nat)
    (c0 : Contrib K) (tl : List (Contrib K)) (hp : contribY.p = c0 :: tl)
    (h0 : 0 ≤ c0.m_pixel ∧ c0.m_pixel < (dev.height : Int)) :
    ∃ v, vertSample dev contribY x channel = some v := by
  have hnot : ¬ (c0.m_pixel < 0 ∨ c0.m_pixel ≥ (dev.height : Int)) := by
    simp only [not_or, not_lt, ge_iff_le, not_le]
    exact h0
  unfold vertSample
  rw [hp]
  dsimp only
  rw [if_neg hnot]
  exact ⟨_, rfl⟩

/-- The length of a row read from a well-formed image. -/
theorem length_readBytes (dev : KisPaintDevice)
    (hwf : dev.data.length = dev.width * dev.height * dev.pixelSize) (y : Nat)
    (hy : y < dev.height) : (dev.readBytes y).length = dev.width * dev.pixelSize := by
  unfold KisPaintDevice.readBytes
  rw [List.length_take, List.length_drop, hwf]
  have h1 : (y + 1) * (dev.width * dev.pixelSize) ≤ dev.height * (dev.width * dev.pixelSize) :=
    Nat.mul_le_mul_right _ hy
  have h2 : dev.width * dev.height * dev.pixelSize = dev.height * (dev.width * dev.pixelSize) := by
    ring
  have h3 : (y + 1) * (dev.width * dev.pixelSize)
      = y * (dev.width * dev.pixelSize) + dev.width * dev.pixelSize := by ring
  rw [h2]
  omega

/-- `allDefined` of defined elements. -/
theorem allDefined_map_some {α : Type} : ∀ (l : List α), allDefined (l.map some) = some l
  | [] => rfl
  | a :: l => by simp [allDefined, allDefined_map_some l]

/-- Reading a buffer of `w` pixels sample by sample gives the buffer. -/
theorem flatMap_getD_eq (w ps : Nat) (l : List Int) (hl : l.length = w * ps) :
    ((List.range w).flatMap fun x =>
      (List.range ps).map fun channel => some (l.getD (x * ps + channel) 0)) = l.map some := by
  apply List.ext_getElem?
  intro n
  by_cases hn : n < w * ps
  · have hps : 0 < ps := by
      rcases Nat.eq_zero_or_pos ps with h | h
      · rw [h] at hn
        simp at hn
      · exact h
    have hdiv : n / ps < w := by
      rw [Nat.div_lt_iff_lt_mul hps]
      exact hn
    have hmod : n % ps < ps := Nat.mod_lt _ hps
    have e : n / ps * ps + n % ps = n := Nat.div_add_mod' n ps
    have hel := flatMap_getElem? ps (fun x channel => some (l.getD (x * ps + channel) 0))
      (List.range w) (n / ps) (n / ps) (n % ps) (List.getElem?_range hdiv) hmod
    rw [e] at hel
    have hlt : n < l.length := by rw [hl]; exact hn
    rw [hel, List.getElem?_map]
    dsimp only
    rw [e, List.getD_eq_getElem?_getD, List.getElem?_eq_getElem hlt]
    rfl
  · have h1 : ((List.range w).flatMap fun x =>
        (List.range ps).map fun channel => some (l.getD (x * ps + channel) 0)).length ≤ n := by
      rw [length_flatMap_range_map, List.length_range]
      omega
    have h2 : (l.map some).length ≤ n := by
      rw [List.length_map, hl]
      omega
    rw [List.getElem?_eq_none h1, List.getElem?_eq_none h2]

end UnitScaleMain

section UnitScaleClaim
variable {K : Type} [LinearOrderedField K] [FloorRing K]

/-- At scale 1 every index of the row list of a kernel whose support is
below the height lies inside the source. -/
theorem calcContrib_unit_in_range (fwidth : K) (height : Nat) (fs : KisScaleFilterStrategy K)
    (y : Nat) (hh : fwidth < (height : K)) (hy : y < height) :
    ∀ e ∈ (calcContrib (1 : K) fwidth height fs y).p,
      0 ≤ e.m_pixel ∧ e.m_pixel < (height : Int) := by
  apply calcContrib_in_range (1 : K) fwidth height fs y one_pos
  · unfold windowHalfWidth
    rw [if_neg (by norm_num)]
    exact hh
  · have e : (1 : K) * (height : K) = (((height : Nat) : Int) : K) := by simp
    rw [e, qRound_intCast]
    exact_mod_cast hy

/-- At scale 1 the vertical sample of output row `y` is the source sample of
row `y`, for the Box, Triangle and SimpleCubic kernels. -/
theorem vertSample_unit (sin : K → K) (filterType : enumFilterType) (dev : KisPaintDevice)
    (y : Nat)
    (hft : filterType = enumFilterType.BOX_FILTER ∨ filterType = enumFilterType.TRIANGLE_FILTER
      ∨ filterType = enumFilterType.FILTER)
    (h8 : ∀ s ∈ dev.data, 0 ≤ s ∧ s ≤ 255)
    (hh : (supportOf filterType : K) < (dev.height : K)) (hy : y < dev.height)
    (x channel : Nat) :
    vertSample dev
      (calcContrib (1 : K) (supportOf filterType) dev.height (newStrategy sin filterType) y)
      x channel = some ((dev.readBytes y).getD (x * dev.pixelSize + channel) 0) := by
  have hin := calcContrib_unit_in_range (supportOf filterType : K) dev.height
    (newStrategy sin filterType) y hh hy
  obtain ⟨l1, l2, hp, h1, h2⟩ := calcContrib_unit_scale sin filterType hft dev.height y hy
  have hdef : ∃ v, vertSample dev
      (calcContrib (1 : K) (supportOf filterType) dev.height (newStrategy sin filterType) y)
      x channel = some v := by
    cases hq : (calcContrib (1 : K) (supportOf filterType) dev.height
        (newStrategy sin filterType) y).p with
    | nil =>
      rw [hq] at hp
      exact absurd hp (by simp)
    | cons c0 tl =>
      exact vertSample_defined dev _ x channel c0 tl hq
        (hin c0 (by rw [hq]; exact List.mem_cons_self _ _))
  obtain ⟨v, hv⟩ := hdef
  rw [hv, vertSample_eq_verticalPass hv hin]
  unfold verticalPass
  rw [hp, List.map_append, List.map_cons]
  dsimp only
  rw [filteredSample_unit _ _ _
    (by
      intro e he
      obtain ⟨c, hc, rfl⟩ := List.mem_map.mp he
      exact h1 c hc)
    (by
      intro e he
      obtain ⟨c, hc, rfl⟩ := List.mem_map.mp he
      exact h2 c hc)]
  rw [Int.toNat_ofNat]
  have hb := getD_eight_bit (dev.readBytes y) (readBytes_eight_bit dev h8 y)
    (x * dev.pixelSize + channel)
  unfold CLAMP
  rw [if_neg (by omega), if_neg (by omega)]

/-- C22: a unit scale on the vertical axis is the identity on that axis for
the Box, Triangle and SimpleCubic kernels.  For an image of 8-bit samples
whose height exceeds the kernel support, `yscale = 1.0` and `xscale ≠ 1.0`,
the call of `scale` runs the row loop over the output rows `0 .. height - 1`,
and for each such row `y`: the row list has weight 1 at source index `y` and
weight 0 at every other entry; the intermediate row built by the vertical
pass is defined and equals source row `y` sample for sample; so the row
written is the horizontal pass over source row `y`. -/
theorem unit_scale_vertical_identity (sin : K → K) (filterType : enumFilterType)
    (dev : KisPaintDevice) (xscale : K) (cancelRequested : Nat → Bool) (y : Nat)
    (hft : filterType = enumFilterType.BOX_FILTER ∨ filterType = enumFilterType.TRIANGLE_FILTER
      ∨ filterType = enumFilterType.FILTER)
    (hwf : dev.data.length = dev.width * dev.height * dev.pixelSize)
    (h8 : ∀ s ∈ dev.data, 0 ≤ s ∧ s ≤ 255)
    (hh : (supportOf filterType : K) < (dev.height : K))
    (hx : xscale ≠ 1.0) (hy : y < dev.height) :
    (∃ l1 l2 : List (Contrib K),
      (calcContrib (1.0 : K) (supportOf filterType) dev.height
        (newStrategy sin filterType) y).p = l1 ++ (⟨y, 1⟩ : Contrib K) :: l2 ∧
      (∀ e ∈ l1, e.m_weight = 0) ∧ (∀ e ∈ l2, e.m_weight = 0)) ∧
    allDefined ((List.range dev.width).flatMap fun x =>
      (List.range dev.pixelSize).map fun channel =>
        vertSample dev (calcContrib (1.0 : K) (supportOf filterType) dev.height
          (newStrategy sin filterType) y) x channel) = some (dev.readBytes y) ∧
    (∀ contribX : List (ContribList K),
      scaleRow dev (1.0 : K) (supportOf filterType) (newStrategy sin filterType) contribX y
        = allDefined (contribX.flatMap fun cx =>
            (List.range dev.pixelSize).map fun channel =>
              horizSample dev.width dev.pixelSize (dev.readBytes y) cx channel)) ∧
    scale sin dev xscale 1.0 cancelRequested filterType =
      (match rowLoop dev (1.0 : K) (supportOf filterType) (newStrategy sin filterType)
          ((List.range (QABS (qRound (xscale * (dev.width : K)))).toNat).map fun (x : Nat) =>
            calcContrib xscale (supportOf filterType) dev.width
              (newStrategy sin filterType) (x : Int))
          cancelRequested (List.range dev.height) with
        | none => none
        | some none => some Outcome.cancelled
        | some (some rows) =>
          if cancelRequested dev.height then some Outcome.cancelled
          else some (Outcome.written (QABS (qRound (xscale * (dev.width : K)))) dev.height
            rows.flatten)) := by
  have e1 : (1.0 : K) = 1 := by norm_num
  have hrow : allDefined ((List.range dev.width).flatMap fun x =>
      (List.range dev.pixelSize).map fun channel =>
        vertSample dev (calcContrib (1.0 : K) (supportOf filterType) dev.height
          (newStrategy sin filterType) y) x channel) = some (dev.readBytes y) := by
    have hfun : (fun x => (List.range dev.pixelSize).map fun channel =>
          vertSample dev (calcContrib (1.0 : K) (supportOf filterType) dev.height
            (newStrategy sin filterType) y) x channel)
        = fun x => (List.range dev.pixelSize).map fun channel =>
          some ((dev.readBytes y).getD (x * dev.pixelSize + channel) 0) := by
      funext x
      apply List.map_congr_left
      intro channel _
      rw [e1]
      exact vertSample_unit sin filterType dev y hft h8 hh hy x channel
    rw [hfun, flatMap_getD_eq dev.width dev.pixelSize (dev.readBytes y)
      (length_readBytes dev hwf y hy), allDefined_map_some]
  refine ⟨?_, hrow, ?_, ?_⟩
  · rw [e1]
    exact calcContrib_unit_scale sin filterType hft dev.height y hy
  · intro contribX
    unfold scaleRow
    dsimp only
    rw [hrow]
  · have hH : QABS (qRound ((1.0 : K) * (((dev.height : Nat) : Int) : K))) = (dev.height : Int) := by
      rw [e1, one_mul, qRound_intCast]
      unfold QABS
      rw [if_pos (Int.natCast_nonneg _)]
    have hsup : (newStrategy sin filterType).support = supportOf filterType := by
      cases filterType <;> rfl
    unfold scale
    dsimp only
    rw [if_neg (fun h => hx h.1), hH, hsup, Int.toNat_ofNat]
    simp only [Int.cast_natCast]

/-- C22 (witness): for the 2x3 image with rows `[10, 20]`, `[30, 40]`,
`[50, 60]`, the Triangle kernel, `yscale = 1.0` and `xscale = 2`, the
intermediate row of output row 1 is source row 1. -/
theorem unit_scale_vertical_identity_witness :
    (supportOf enumFilterType.TRIANGLE_FILTER : ℚ) < ((3 : Nat) : ℚ) ∧ (2 : ℚ) ≠ 1.0 ∧
    allDefined ((List.range 2).flatMap fun x =>
      (List.range 1).map fun channel =>
        vertSample (⟨2, 3, 1, [10, 20, 30, 40, 50, 60]⟩ : KisPaintDevice)
          (calcContrib (1.0 : ℚ) (supportOf enumFilterType.TRIANGLE_FILTER) ((3 : Nat) : Int)
            (newStrategy (fun _ => (0 : ℚ)) enumFilterType.TRIANGLE_FILTER) ((1 : Nat) : Int))
          x channel) = some [30, 40] :=
  ⟨by norm_num [supportOf], by norm_num,
    (unit_scale_vertical_identity (fun _ => (0 : ℚ)) enumFilterType.TRIANGLE_FILTER
      ⟨2, 3, 1, [10, 20, 30, 40, 50, 60]⟩ 2 (fun _ => false) 1 (Or.inr (Or.inl rfl))
      (by decide) (by decide) (by norm_num [supportOf]) (by norm_num) (by decide)).2.1⟩

end UnitScaleClaim

/-! ## Capacity of the contribution list in `double` arithmetic -/

section RoundedFacts

/-- Without rounding, `calcContribRounded` is `calcContrib`. -/
theorem calcContribRounded_id {K : Type} [LinearOrderedField K] [FloorRing K]
    (scale fwidth : K) (srcwidth : Int) (fs : KisScaleFilterStrategy K) (i : Int) :
    calcContribRounded id scale fwidth srcwidth fs i = calcContrib scale fwidth srcwidth fs i :=
  rfl

/-- The exponent of a positive rational between two powers of 2. -/
theorem log_two_eq (x : ℚ) (e : Int) (hlo : (2 : ℚ) ^ e ≤ x) (hhi : x < (2 : ℚ) ^ (e + 1)) :
    Int.log 2 x = e := by
  have hx : 0 < x := lt_of_lt_of_le (zpow_pos (by norm_num) e) hlo
  have h1 : e ≤ Int.log 2 x := by
    rw [← Int.zpow_le_iff_le_log (by norm_num) hx]
    exact_mod_cast hlo
  have h2 : Int.log 2 x < e + 1 := by
    rw [← Int.lt_zpow_iff_log_lt (by norm_num) hx]
    exact_mod_cast hhi
  omega

/-- The `double` nearest to `x`, from the exponent `e` of `x` and the
rounded significand `m`. -/
theorem binary64_eq (x : ℚ) (e m : Int) (hlo : (2 : ℚ) ^ e ≤ x) (hhi : x < (2 : ℚ) ^ (e + 1))
    (hm : roundHalfEven (x * 2 ^ (52 - e)) = m) : binary64 x = (m : ℚ) * 2 ^ (e - 52) := by
  have hx : 0 < x := lt_of_lt_of_le (zpow_pos (by norm_num) e) hlo
  unfold binary64
  rw [if_neg hx.ne', abs_of_pos hx, log_two_eq x e hlo hhi, hm]

/-- Rounding to the nearest integer away from a tie. -/
theorem roundHalfEven_eq (x : ℚ) (m : Int) (h1 : (m : ℚ) - 1 / 2 < x) (h2 : x < (m : ℚ) + 1 / 2) :
    roundHalfEven x = m := by
  unfold roundHalfEven
  by_cases hm : (m : ℚ) ≤ x
  · have hf : ⌊x⌋ = m := by
      rw [Int.floor_eq_iff]
      exact ⟨hm, by linarith⟩
    rw [hf, if_pos (by linarith)]
  · have hf : ⌊x⌋ = m - 1 := by
      rw [Int.floor_eq_iff]
      push_cast
      exact ⟨by linarith, by linarith⟩
    rw [hf]
    push_cast
    rw [if_neg (by linarith), if_pos (by linarith)]
    omega

/-- Rounding a tie to the even neighbour below. -/
theorem roundHalfEven_tie_even (x : ℚ) (m : Int) (h : x = (m : ℚ) + 1 / 2) (he : m % 2 = 0) :
    roundHalfEven x = m := by
  have hf : ⌊x⌋ = m := by
    rw [Int.floor_eq_iff]
    exact ⟨by linarith, by linarith⟩
  unfold roundHalfEven
  rw [hf, if_neg (by linarith), if_neg (by linarith), if_pos he]

end RoundedFacts

section OverflowFacts

/-- The `double` `12.0 / 118.0`. -/
theorem binary64_scale : binary64 (12 / 118) = 7327890919111316 / 2 ^ 56 := by
  rw [binary64_eq (12 / 118) (-4) 7327890919111316 (by norm_num) (by norm_num)
    (roundHalfEven_eq _ _ (by norm_num) (by norm_num))]
  norm_num

/-- The `double` `width = fwidth / scale` for `fwidth = 3.0`: one unit in the
last place below `29.5`. -/
theorem binary64_width :
    binary64 (3 / (7327890919111316 / 2 ^ 56)) = 8303511812964351 / 2 ^ 48 := by
  rw [binary64_eq _ 4 8303511812964351 (by norm_num) (by norm_num)
    (roundHalfEven_eq _ _ (by norm_num) (by norm_num))]
  norm_num

/-- The `double` `center = (double) i / scale` for `i = 9`. -/
theorem binary64_center :
    binary64 (((9 : Int) : ℚ) / (7327890919111316 / 2 ^ 56)) = 177 / 2 := by
  rw [binary64_eq _ 6 6227633859723264 (by norm_num) (by norm_num)
    (roundHalfEven_eq _ _ (by norm_num) (by norm_num))]
  norm_num

/-- The `double` `center - width`: the exact difference `59 + 2^-48` is a tie
and rounds to `59.0`. -/
theorem binary64_begin : binary64 (177 / 2 - 8303511812964351 / 2 ^ 48) = 59 := by
  rw [binary64_eq _ 5 8303511812964352 (by norm_num) (by norm_num)
    (roundHalfEven_tie_even _ _ (by norm_num) (by decide))]
  norm_num

/-- The `double` `center + width`: the exact sum `118 - 2^-48` rounds to
`118.0`. -/
theorem binary64_end : binary64 (177 / 2 + 8303511812964351 / 2 ^ 48) = 118 := by
  rw [binary64_eq _ 6 8303511812964352 (by norm_num) (by norm_num)
    (roundHalfEven_eq _ _ (by norm_num) (by norm_num))]
  norm_num

/-- The `double` `width * 2` (exact). -/
theorem binary64_width_two :
    binary64 (8303511812964351 / 2 ^ 48 * 2) = 8303511812964351 / 2 ^ 47 := by
  rw [binary64_eq _ 5 8303511812964351 (by norm_num) (by norm_num)
    (roundHalfEven_eq _ _ (by norm_num) (by norm_num))]
  norm_num

/-- The `double` `width * 2 + 1`: below `60`. -/
theorem binary64_width_two_one :
    binary64 (8303511812964351 / 2 ^ 47 + 1) = 8444249301319679 / 2 ^ 47 := by
  rw [binary64_eq _ 5 8444249301319679 (by norm_num) (by norm_num)
    (roundHalfEven_eq _ _ (by norm_num) (by norm_num))]
  norm_num

/-- C17: the capacity does not bound the number of entries written in the
arithmetic of the compiled code.  With every operation of `calcContrib`
rounded to `double`, for the scale `12.0 / 118.0` (an image 118 wide reduced
to `qRound(scale * 118) = 12` columns), support `3.0` (Lanczos3) and target
index 9, the array is allocated with `(int)(width * 2 + 1) = 59` entries
and the loop writes 60, while in exact arithmetic the same call writes 59
entries into 59. -/
theorem contribution_list_exceeds_allocation (srcwidth : Int)
    (fs : KisScaleFilterStrategy ℚ) :
    qRound (binary64 (binary64 (12 / 118) * 118)) = 12 ∧
    (calcContribRounded binary64 (binary64 (12 / 118)) 3 srcwidth fs 9).cap = 59 ∧
    (calcContribRounded binary64 (binary64 (12 / 118)) 3 srcwidth fs 9).p.length = 60 ∧
    (calcContrib (binary64 (12 / 118)) 3 srcwidth fs 9).cap = 59 ∧
    (calcContrib (binary64 (12 / 118)) 3 srcwidth fs 9).p.length = 59 := by
  have hlt : (7327890919111316 / 2 ^ 56 : ℚ) < 1.0 := by norm_num
  rw [binary64_scale]
  refine ⟨?_, ?_, ?_, ?_, ?_⟩
  · rw [binary64_eq _ 3 6755399441055744 (by norm_num) (by norm_num)
      (roundHalfEven_eq _ _ (by norm_num) (by norm_num))]
    unfold qRound
    rw [Int.floor_eq_iff]
    norm_num
  · unfold calcContribRounded
    rw [if_pos hlt]
    dsimp only
    rw [binary64_width, binary64_width_two, binary64_width_two_one]
    unfold toInt
    rw [if_pos (by norm_num), Int.floor_eq_iff]
    norm_num
  · unfold calcContribRounded
    rw [if_pos hlt]
    dsimp only
    rw [List.length_map, length_srcposRange, binary64_width, binary64_center, binary64_begin,
      binary64_end]
    have h1 : ⌈(59 : ℚ)⌉ = 59 := by
      rw [Int.ceil_eq_iff]; norm_num
    have h2 : ⌊(118 : ℚ)⌋ = 118 := by
      rw [Int.floor_eq_iff]; norm_num
    rw [h1, h2]
    rfl
  · rw [cap_calcContrib]
    unfold windowHalfWidth toInt
    rw [if_pos hlt, if_pos (by norm_num), Int.floor_eq_iff]
    norm_num
  · rw [length_calcContrib]
    unfold windowHalfWidth
    rw [if_pos hlt]
    have h1 : ⌈(((9 : Int) : ℚ)) / (7327890919111316 / 2 ^ 56)
        - 3 / (7327890919111316 / 2 ^ 56)⌉ = 59 := by
      rw [Int.ceil_eq_iff]; norm_num
    have h2 : ⌊(((9 : Int) : ℚ)) / (7327890919111316 / 2 ^ 56)
        + 3 / (7327890919111316 / 2 ^ 56)⌋ = 117 := by
      rw [Int.floor_eq_iff]; norm_num
    rw [h1, h2]
    rfl

end OverflowFacts

end KisScale
